import Mathlib

/-!
Shallow embedding of the Chain-of-Edits (CoE) code-repair system:
`src/env.py` (ScratchpadState, DSLExecutor, CoEEnv),
`src/corruptor.py` (corruption operators),
`src/demo_generator.py` (trace synthesis),
`src/rl_train.py` (rollout, returns and advantages).

Python strings are modelled as lists of characters (`Str`).  The Python
`exec`-based test harness is an external effect and is modelled by an
abstract execution oracle (`ExecOracle`); rewards and returns (exact
binary floats 0.0, 1.0, 0.5 in the source) are modelled by rationals;
`math.sqrt` is modelled by an abstract function parameter.  Character
classes (`str.isdigit`, `str.split()`, `str.strip()`, regex `\s`/`\d`)
are modelled over their ASCII subsets.
-/

namespace CoE

/-- Python strings, modelled as lists of characters. -/
abbrev Str := List Char

/-- View a Lean string literal as a `Str`. -/
def strL (s : String) : Str := s.data

/-- ASCII whitespace, as recognized by Python `str.split()` / `str.strip()`. -/
def isWS (c : Char) : Bool :=
  c = ' ' || c = '\t' || c = '\n' || c = '\r' || c = '\x0b' || c = '\x0c'

/-- ASCII decimal digit, as recognized by Python `str.isdigit` / regex `\d`. -/
def isDigitCh (c : Char) : Bool :=
  '0' ≤ c && c ≤ '9'

/-- Worker for `pySplitWS`; `acc` is the pending (possibly empty)
current token. -/
def pySplitWSAux : Str → Str → List Str
  | [], acc => if acc.isEmpty then [] else [acc]
  | c :: r, acc =>
    if isWS c then
      if acc.isEmpty then pySplitWSAux r [] else acc :: pySplitWSAux r []
    else pySplitWSAux r (acc ++ [c])

/-- Python `str.split()` with no separator: split on runs of whitespace,
discarding empty fields. -/
def pySplitWS (l : Str) : List Str :=
  pySplitWSAux l []

/-- Drop trailing whitespace (the right half of Python `str.strip()`). -/
def stripTrail (l : Str) : Str :=
  (l.reverse.dropWhile isWS).reverse

/-- Python `str.strip()` with no arguments. -/
def pyStrip (l : Str) : Str :=
  stripTrail (l.dropWhile isWS)

/-- Python `str.startswith` for a single pattern. -/
def isPre : Str → Str → Bool
  | [], _ => true
  | _ :: _, [] => false
  | c :: p, d :: s => c = d && isPre p s

/-- Python `pat in s` substring containment. -/
def containsStr (pat : Str) : Str → Bool
  | [] => isPre pat []
  | c :: r => isPre pat (c :: r) || containsStr pat r

/-- The suffix of `s` after the first occurrence of `pat`
(Python `s.split(pat, 1)[1]`, only used when `pat in s`). -/
def afterFirst (pat : Str) : Str → Str
  | [] => []
  | c :: r => if isPre pat (c :: r) then (c :: r).drop pat.length else afterFirst pat r

/-- Decimal digit character for `d < 10`. -/
def digitChar (d : Nat) : Char :=
  match d with
  | 0 => '0' | 1 => '1' | 2 => '2' | 3 => '3' | 4 => '4'
  | 5 => '5' | 6 => '6' | 7 => '7' | 8 => '8' | _ => '9'

/-- Fuel-indexed worker for `natToStr`; any fuel above the value itself
is enough (`natToStrF_fuel`). -/
def natToStrF : Nat → Nat → Str
  | 0, _ => []
  | fuel + 1, n =>
    if n < 10 then [digitChar n]
    else natToStrF fuel (n / 10) ++ [digitChar (n % 10)]

/-- Decimal rendering of a natural number (Python `str(n)` / f-string). -/
def natToStr (n : Nat) : Str :=
  natToStrF (n + 1) n

theorem natToStrF_fuel : ∀ f g n, n < f → n < g → natToStrF f n = natToStrF g n := by
  intro f
  induction f with
  | zero => omega
  | succ f ih =>
    intro g n hf hg
    cases g with
    | zero => omega
    | succ g =>
      simp only [natToStrF]
      by_cases h : n < 10
      · simp [h]
      · have h1 : n / 10 < n := Nat.div_lt_self (by omega) (by omega)
        simp only [if_neg h]
        rw [ih g (n / 10) (by omega) (by omega)]

/-- Unfolding rule for `natToStr` on multi-digit numbers. -/
theorem natToStr_ge10 (n : Nat) (h : ¬ n < 10) :
    natToStr n = natToStr (n / 10) ++ [digitChar (n % 10)] := by
  have h1 : n / 10 < n := Nat.div_lt_self (by omega) (by omega)
  rw [natToStr, natToStr, natToStrF, if_neg h,
    natToStrF_fuel n (n / 10 + 1) (n / 10) (by omega) (by omega)]

theorem natToStr_lt10 (n : Nat) (h : n < 10) : natToStr n = [digitChar n] := by
  rw [natToStr, natToStrF, if_pos h]

/-- Numeric value of a digit character. -/
def digitVal (c : Char) : Nat := c.toNat - 48

/-- Python `int(s)` on an all-digit string. -/
def strToNat (l : Str) : Nat :=
  l.foldl (fun a c => a * 10 + digitVal c) 0

/-- Python `str.isdigit()` (ASCII digits). -/
def pyIsDigit (l : Str) : Bool :=
  !l.isEmpty && l.all isDigitCh

/-- Python `list.insert(i, x)` for `i ≤ len` (indices beyond the length append). -/
def pyInsert {α : Type} : List α → Nat → α → List α
  | l, 0, x => x :: l
  | [], _ + 1, x => [x]
  | h :: t, n + 1, x => h :: pyInsert t n x

/-- Python `list.pop(i)` for an in-range index `i`. -/
def pyPop {α : Type} : List α → Nat → List α
  | [], _ => []
  | _ :: t, 0 => t
  | h :: t, n + 1 => h :: pyPop t n

/-- Worker for `pyReplace` with a non-empty pattern: leftmost,
non-overlapping replacement. -/
def pyReplaceAux (old new : Str) (s : Str) : Str :=
  match s with
  | [] => []
  | c :: r =>
    if h : old ≠ [] ∧ isPre old (c :: r) then
      new ++ pyReplaceAux old new ((c :: r).drop old.length)
    else c :: pyReplaceAux old new r
termination_by s.length
decreasing_by
  · have : old.length ≥ 1 := by
      cases old with
      | nil => exact absurd rfl h.1
      | cons a b => simp
    simp only [List.drop, List.length_cons, List.length_drop]
    omega
  · simp

/-- Python `str.replace(old, new)` (all occurrences; an empty `old`
interleaves `new` between every character). -/
def pyReplace (s old new : Str) : Str :=
  if old = [] then new ++ s.foldr (fun c acc => c :: (new ++ acc)) []
  else pyReplaceAux old new s

/-- Whether regex `.*` (no DOTALL) can match this text: no newline. -/
def dotOK (l : Str) : Bool :=
  l.all (fun c => c ≠ '\n')

/-- What regex `(.*)$` captures on `l`: all of `l` if newline-free, all
but a single trailing newline otherwise, else no match. -/
def dollarMatch (l : Str) : Option Str :=
  if dotOK l then some l
  else if l.getLast? = some '\n' && dotOK l.dropLast then some l.dropLast
  else none

/-- The lazy tail `(.*?)>>>(.*)$` of the REPW regex on the text after the
first `>>>`: the shortest newline-free prefix followed by `>>>` and a
`(.*)$` match. -/
def repwSplit : Str → Option (Str × Str)
  | [] => none
  | c :: rest =>
    match (if isPre (strL ">>>") (c :: rest) then dollarMatch ((c :: rest).drop 3) else none) with
    | some g => some ([], g)
    | none =>
      if c = '\n' then none
      else (repwSplit rest).map (fun p => (c :: p.1, p.2))

/-- Python `re.match(r"REPW\s+(\d+)\s+>>>(.*?)>>>(.*)$", s)`, returning
the line number and the two captured strings. -/
def repwMatch (s : Str) : Option (Nat × Str × Str) :=
  match s with
  | 'R' :: 'E' :: 'P' :: 'W' :: r0 =>
    let ws1 := r0.takeWhile isWS
    let r1 := r0.dropWhile isWS
    if ws1.isEmpty then none
    else
      let ds := r1.takeWhile isDigitCh
      let r2 := r1.dropWhile isDigitCh
      if ds.isEmpty then none
      else
        let ws2 := r2.takeWhile isWS
        let r3 := r2.dropWhile isWS
        if ws2.isEmpty then none
        else if isPre (strL ">>>") r3 then
          (repwSplit (r3.drop 3)).map (fun p => (strToNat ds, p.1, p.2))
        else none
  | _ => none

/-- The DELL branch of `CoEEnv.apply` after parsing: pop the 1-based line
iff it is in range, else silently keep the buffer. -/
def applyDELL (lines : List Str) (ln : Nat) : List Str :=
  if 1 ≤ ln ∧ ln ≤ lines.length then pyPop lines (ln - 1) else lines

/-- The ADDL branch of `CoEEnv.apply` after parsing: clamp the 1-based
line into `[1, length+1]`, then insert. -/
def applyADDL (lines : List Str) (ln : Nat) (content : Str) : List Str :=
  pyInsert lines (max 1 (min ln (lines.length + 1)) - 1) content

/-- The REPL branch of `CoEEnv.apply` after parsing: overwrite the
1-based line iff it is in range, else silently keep the buffer. -/
def applyREPL (lines : List Str) (ln : Nat) (content : Str) : List Str :=
  if 1 ≤ ln ∧ ln ≤ lines.length then lines.set (ln - 1) content else lines

/-- The REPW branch of `CoEEnv.apply` after the regex matched: replace
all occurrences of `old` by `new` within the 1-based line iff it is in
range. -/
def applyREPW (lines : List Str) (ln : Nat) (old new : Str) : List Str :=
  if 1 ≤ ln ∧ ln ≤ lines.length then
    lines.set (ln - 1) (pyReplace (lines.getD (ln - 1) []) old new)
  else lines

/-- `CoEEnv.apply`, the effect on the line buffer.  Python raises
`IndexError` at `parts[0]` when the stripped action has no tokens; that
case is modelled by `applyOk` below and this function then keeps the
buffer (the exception case is unreachable wherever `applyOk` holds). -/
def apply (lines : List Str) (action0 : Str) : List Str :=
  let action := pyStrip action0
  let parts := pySplitWS action
  match parts with
  | [] => lines
  | p0 :: rest =>
    if p0 = strL "DELL" then
      match rest with
      | p1 :: _ => if pyIsDigit p1 then applyDELL lines (strToNat p1) else lines
      | [] => lines
    else if p0 = strL "ADDL" then
      match rest with
      | p1 :: _ =>
        if pyIsDigit p1 then
          applyADDL lines (strToNat p1)
            (if containsStr (strL ">>>") action then afterFirst (strL ">>>") action else [])
        else lines
      | [] => lines
    else if p0 = strL "REPL" then
      match rest with
      | p1 :: _ =>
        if pyIsDigit p1 then
          applyREPL lines (strToNat p1)
            (if containsStr (strL ">>>") action then afterFirst (strL ">>>") action else [])
        else lines
      | [] => lines
    else if p0 = strL "REPW" then
      match repwMatch action with
      | some m => applyREPW lines m.1 m.2.1 m.2.2
      | none => lines
    else lines

/-- Whether `CoEEnv.apply` returns normally: Python evaluates `parts[0]`,
which raises `IndexError` exactly when the stripped action splits into no
tokens. -/
def applyOk (action0 : Str) : Bool :=
  !(pySplitWS (pyStrip action0)).isEmpty

/-- Abstract model of `exec`-based execution (`DSLExecutor`):
`execProgram` runs a program text in a fresh namespace of type `Ns`,
yielding the populated namespace or a traceback text; `execTest` runs
one test statement against a namespace, yielding the (possibly mutated)
namespace and the error `repr` if the statement raised. -/
structure ExecOracle (Ns : Type) where
  execProgram : Str → Except Str Ns
  execTest : Ns → Str → Ns × Option Str

/-- The test loop of `DSLExecutor.run`: run each test in sequence against
the namespace, collecting `(index, test, error)` for each failure
(indices from `enumerate(self.tests, 1)`). -/
def runTests {Ns : Type} (ex : ExecOracle Ns) : Ns → Nat → List Str → List (Nat × Str × Str)
  | _, _, [] => []
  | g, i, t :: rest =>
    match h : ex.execTest g t with
    | (g', none) => runTests ex g' (i + 1) rest
    | (g', some e) => (i, t, e) :: runTests ex g' (i + 1) rest

/-- The per-failure message of `DSLExecutor.run`. -/
def fmtFail (f : Nat × Str × Str) : Str :=
  strL "Test " ++ natToStr f.1 ++ strL " failed!\nTest code:\n" ++ f.2.1 ++
    strL "\nError: " ++ f.2.2

/-- `DSLExecutor.run`: execute the program; on failure return the
traceback, otherwise run all tests and return the joined failure
messages ("" when all pass). -/
def DSLrun {Ns : Type} (ex : ExecOracle Ns) (tests : List Str) (code_text : Str) : Str :=
  match ex.execProgram code_text with
  | .error tb => tb
  | .ok g =>
    let failed := runTests ex g 1 tests
    if failed = [] then []
    else List.intercalate (strL "\n") (failed.map fmtFail)

/-- `ScratchpadState`: code lines plus feedback text. -/
structure EnvState where
  code_lines : List Str
  feedback : Str
deriving Repr, DecidableEq

/-- `ScratchpadState.render`: numbered lines, a `***` separator line,
then the feedback. -/
def render (st : EnvState) : Str :=
  List.intercalate (strL "\n")
      ((List.range st.code_lines.length).map
        (fun i => strL "L " ++ natToStr (i + 1) ++ strL " " ++ st.code_lines.getD i []))
    ++ strL "\n***\n" ++ st.feedback

/-- Python `"\n".join(lines)` used by `CoEEnv.update_feedback`. -/
def joinNL (lines : List Str) : Str :=
  List.intercalate (strL "\n") lines

/-- The feedback `CoEEnv.update_feedback` computes for a line buffer. -/
def feedbackFor {Ns : Type} (ex : ExecOracle Ns) (tests : List Str) (lines : List Str) : Str :=
  DSLrun ex tests (joinNL lines)

/-- `CoEEnv.__init__`: store the lines and immediately compute feedback. -/
def initEnv {Ns : Type} (ex : ExecOracle Ns) (tests : List Str) (lines : List Str) : EnvState :=
  ⟨lines, feedbackFor ex tests lines⟩

/-- `CoEEnv.apply` at the state level: mutate the buffer, recompute
feedback, and return the (snapshot of the) new state. -/
def envApply {Ns : Type} (ex : ExecOracle Ns) (tests : List Str) (st : EnvState)
    (action : Str) : EnvState :=
  let ls := apply st.code_lines action
  ⟨ls, feedbackFor ex tests ls⟩

theorem pyInsert_length {α : Type} (l : List α) (i : Nat) (x : α) :
    (pyInsert l i x).length = l.length + 1 := by
  induction l generalizing i with
  | nil => cases i <;> simp [pyInsert]
  | cons h t ih =>
    cases i with
    | zero => simp [pyInsert]
    | succ n => simp [pyInsert, ih]

theorem pyInsert_eq_take_drop {α : Type} (l : List α) (i : Nat) (x : α)
    (h : i ≤ l.length) : pyInsert l i x = l.take i ++ x :: l.drop i := by
  induction l generalizing i with
  | nil =>
    simp only [List.length_nil, Nat.le_zero] at h
    subst h
    simp [pyInsert]
  | cons a t ih =>
    cases i with
    | zero => simp [pyInsert]
    | succ n =>
      simp only [List.length_cons, Nat.succ_le_succ_iff] at h
      simp [pyInsert, ih n h]

theorem pyPop_eq_take_drop {α : Type} (l : List α) (i : Nat)
    (h : i < l.length) : pyPop l i = l.take i ++ l.drop (i + 1) := by
  induction l generalizing i with
  | nil => simp at h
  | cons a t ih =>
    cases i with
    | zero => simp [pyPop]
    | succ n =>
      simp only [List.length_cons, Nat.succ_lt_succ_iff] at h
      simp [pyPop, ih n h]

theorem set_eq_take_drop {α : Type} (l : List α) (i : Nat) (x : α)
    (h : i < l.length) : l.set i x = l.take i ++ x :: l.drop (i + 1) := by
  induction l generalizing i with
  | nil => simp at h
  | cons a t ih =>
    cases i with
    | zero => simp
    | succ n =>
      simp only [List.length_cons, Nat.succ_lt_succ_iff] at h
      simp [List.set, ih n h]

theorem set_self_of_get {α : Type} (l : List α) (i : Nat) (x : α)
    (h : l.get? i = some x) : l.set i x = l := by
  induction l generalizing i with
  | nil => simp [List.get?] at h
  | cons a t ih =>
    cases i with
    | zero =>
      simp only [List.get?_cons_zero, Option.some.injEq] at h
      subst h
      rfl
    | succ n =>
      simp only [List.get?_cons_succ] at h
      simp [List.set, ih n h]

/-- C7: for every buffer and every parsed `Insert(line, content)`, the
line is clamped into `[1, N+1]`, the insertion always succeeds yielding
`N+1` lines with the content at the clamped 1-based position and all
other lines in order, and a clamp to `N+1` appends. -/
theorem claim_C7 (lines : List Str) (ln : Nat) (content : Str) :
    1 ≤ max 1 (min ln (lines.length + 1)) ∧
    max 1 (min ln (lines.length + 1)) ≤ lines.length + 1 ∧
    (applyADDL lines ln content).length = lines.length + 1 ∧
    applyADDL lines ln content =
      lines.take (max 1 (min ln (lines.length + 1)) - 1) ++
        content :: lines.drop (max 1 (min ln (lines.length + 1)) - 1) ∧
    (max 1 (min ln (lines.length + 1)) = lines.length + 1 →
      applyADDL lines ln content = lines ++ [content]) := by
  have hle : max 1 (min ln (lines.length + 1)) - 1 ≤ lines.length := by omega
  refine ⟨by omega, by omega, pyInsert_length _ _ _, ?_, ?_⟩
  · exact pyInsert_eq_take_drop _ _ _ hle
  · intro hc
    rw [applyADDL, pyInsert_eq_take_drop _ _ _ hle, hc]
    simp

/-- Closed instance of `claim_C7`, discharging its implication on a
concrete buffer: clamping 99 on a 2-line buffer appends. -/
theorem claim_C7_witness :
    applyADDL [strL "a", strL "b"] 99 (strL "c") = [strL "a", strL "b", strL "c"] := by
  have h := claim_C7 [strL "a", strL "b"] 99 (strL "c")
  exact h.2.2.2.2 (by decide)

/-- C8: `Delete(line)` on an in-range 1-based line removes exactly that
line keeping the rest in order; out-of-range leaves the buffer
unchanged. -/
theorem claim_C8 (lines : List Str) (ln : Nat) :
    (1 ≤ ln ∧ ln ≤ lines.length →
      applyDELL lines ln = lines.take (ln - 1) ++ lines.drop ln ∧
      (applyDELL lines ln).length = lines.length - 1) ∧
    (¬(1 ≤ ln ∧ ln ≤ lines.length) → applyDELL lines ln = lines) := by
  constructor
  · intro h
    have hlt : ln - 1 < lines.length := by omega
    have he : applyDELL lines ln = lines.take (ln - 1) ++ lines.drop ln := by
      rw [applyDELL, if_pos h, pyPop_eq_take_drop _ _ hlt, Nat.sub_add_cancel h.1]
    refine ⟨he, ?_⟩
    rw [he]
    simp only [List.length_append, List.length_take, List.length_drop]
    omega
  · intro h
    rw [applyDELL, if_neg h]

/-- Closed instance of `claim_C8` on a concrete buffer: deleting line 2
of 3, and the out-of-range no-op at line 99. -/
theorem claim_C8_witness :
    applyDELL [strL "a", strL "b", strL "c"] 2 = [strL "a", strL "c"] ∧
    applyDELL [strL "a", strL "b"] 99 = [strL "a", strL "b"] := by
  refine ⟨?_, ?_⟩
  · have h := (claim_C8 [strL "a", strL "b", strL "c"] 2).1 (by decide)
    exact h.1
  · exact (claim_C8 [strL "a", strL "b"] 99).2 (by decide)

/-- C9: `Replace(line, content)` overwrites the target line iff it is in
range, otherwise the buffer is bit-for-bit unchanged; replacing a line
with its current content is a no-op. -/
theorem claim_C9 (lines : List Str) (ln : Nat) (content : Str) :
    (1 ≤ ln ∧ ln ≤ lines.length →
      applyREPL lines ln content =
        lines.take (ln - 1) ++ content :: lines.drop ln) ∧
    (¬(1 ≤ ln ∧ ln ≤ lines.length) → applyREPL lines ln content = lines) ∧
    (lines.get? (ln - 1) = some content → applyREPL lines ln content = lines) := by
  refine ⟨?_, ?_, ?_⟩
  · intro h
    have hlt : ln - 1 < lines.length := by omega
    rw [applyREPL, if_pos h, set_eq_take_drop _ _ _ hlt, Nat.sub_add_cancel h.1]
  · intro h
    rw [applyREPL, if_neg h]
  · intro h
    rw [applyREPL]
    split
    · exact set_self_of_get _ _ _ h
    · rfl

/-- Closed instance of `claim_C9`: in-range replace, out-of-range no-op,
and identical-content no-op on concrete buffers. -/
theorem claim_C9_witness :
    applyREPL [strL "a", strL "b"] 2 (strL "q") = [strL "a", strL "q"] ∧
    applyREPL [strL "a", strL "b"] 99 (strL "q") = [strL "a", strL "b"] ∧
    applyREPL [strL "a", strL "b"] 1 (strL "a") = [strL "a", strL "b"] := by
  refine ⟨?_, ?_, ?_⟩
  · exact ((claim_C9 [strL "a", strL "b"] 2 (strL "q")).1 (by decide))
  · exact ((claim_C9 [strL "a", strL "b"] 99 (strL "q")).2.1 (by decide))
  · exact ((claim_C9 [strL "a", strL "b"] 1 (strL "a")).2.2 (by decide))

/-- C2 counterexample: `"ADDL 1"` is malformed in the claim's sense (it
has no `>>>` content delimiter), yet `apply` does not leave the buffer
unchanged — it inserts an empty line. -/
theorem claim_C2_counterexample :
    apply [strL "a"] (strL "ADDL 1") = [[], strL "a"] ∧
    apply [strL "a"] (strL "ADDL 1") ≠ [strL "a"] := by
  decide

/-- C2 amended: an action whose stripped text has no tokens raises
(`applyOk` is false) rather than no-oping; among tokenizable actions,
an unrecognized leading verb, a DELL/ADDL/REPL with a missing or
non-integer line argument, and a REPW not matching the regex shape are
silent no-ops; but ADDL/REPL with a valid integer line and no `>>>`
delimiter treat the content as the empty string (for ADDL this always
mutates the buffer). -/
theorem claim_C2_amended (lines : List Str) (action0 : Str) :
    (pySplitWS (pyStrip action0) = [] → applyOk action0 = false) ∧
    (∀ p0 rest, pySplitWS (pyStrip action0) = p0 :: rest →
      (p0 ∉ [strL "DELL", strL "ADDL", strL "REPL", strL "REPW", strL "EXIT"] →
        apply lines action0 = lines) ∧
      (p0 ∈ [strL "DELL", strL "ADDL", strL "REPL"] →
        (∀ p1 r2, rest = p1 :: r2 → pyIsDigit p1 = false → apply lines action0 = lines) ∧
        (rest = [] → apply lines action0 = lines)) ∧
      (p0 = strL "REPW" → repwMatch (pyStrip action0) = none → apply lines action0 = lines) ∧
      (p0 = strL "ADDL" → ∀ p1 r2, rest = p1 :: r2 → pyIsDigit p1 = true →
        containsStr (strL ">>>") (pyStrip action0) = false →
        apply lines action0 = applyADDL lines (strToNat p1) []) ∧
      (p0 = strL "REPL" → ∀ p1 r2, rest = p1 :: r2 → pyIsDigit p1 = true →
        containsStr (strL ">>>") (pyStrip action0) = false →
        apply lines action0 = applyREPL lines (strToNat p1) [])) := by
  constructor
  · intro h
    simp [applyOk, h]
  · intro p0 rest hparts
    refine ⟨?_, ?_, ?_, ?_, ?_⟩
    · intro hno
      simp only [List.mem_cons, List.not_mem_nil, or_false, not_or] at hno
      obtain ⟨h1, h2, h3, h4, h5⟩ := hno
      simp [apply, hparts, h1, h2, h3, h4, h5]
    · intro hmem
      simp only [List.mem_cons, List.not_mem_nil, or_false] at hmem
      constructor
      · intro p1 r2 hrest hd
        subst hrest
        rcases hmem with h | h | h <;> subst h <;> simp [apply, hparts, hd]
      · intro hrest
        subst hrest
        rcases hmem with h | h | h <;> subst h <;> simp [apply, hparts]
    · intro h0 hm
      subst h0
      simp [apply, hparts, hm, show strL "REPW" ≠ strL "DELL" from by decide,
        show strL "REPW" ≠ strL "ADDL" from by decide,
        show strL "REPW" ≠ strL "REPL" from by decide]
    · intro h0 p1 r2 hrest hd hc
      subst h0
      subst hrest
      simp [apply, hparts, hd, hc, show strL "ADDL" ≠ strL "DELL" from by decide]
    · intro h0 p1 r2 hrest hd hc
      subst h0
      subst hrest
      simp [apply, hparts, hd, hc, show strL "REPL" ≠ strL "DELL" from by decide,
        show strL "REPL" ≠ strL "ADDL" from by decide]

/-- The success condition of the claim: the joined buffer executes
without raising and every test statement then runs, in sequence, without
raising. -/
def passCond {Ns : Type} (ex : ExecOracle Ns) (tests : List Str) (lines : List Str) : Prop :=
  ∃ g, ex.execProgram (joinNL lines) = .ok g ∧ runTests ex g 1 tests = []

theorem intercalate_cons_ne_nil (sep x : Str) (xs : List Str) (hx : x ≠ []) :
    List.intercalate sep (x :: xs) ≠ [] := by
  cases xs with
  | nil => simpa [List.intercalate, List.intersperse] using hx
  | cons y ys =>
    simp only [List.intercalate, List.intersperse, List.join]
    intro h
    rcases List.append_eq_nil.mp h with ⟨h1, _⟩
    exact hx h1

theorem fmtFail_ne_nil (f : Nat × Str × Str) : fmtFail f ≠ [] := by
  simp [fmtFail, strL]

theorem DSLrun_eq_nil_iff {Ns : Type} (ex : ExecOracle Ns) (tests : List Str) (ct : Str)
    (htb : ∀ s e, ex.execProgram s = .error e → e ≠ []) :
    (DSLrun ex tests ct = [] ↔
      ∃ g, ex.execProgram ct = .ok g ∧ runTests ex g 1 tests = []) := by
  rw [DSLrun]
  cases hp : ex.execProgram ct with
  | error tb =>
    simp only []
    constructor
    · intro h
      exact absurd h (htb ct tb hp)
    · rintro ⟨g, hg, -⟩
      simp [hp] at hg
  | ok g =>
    simp only []
    cases hf : runTests ex g 1 tests with
    | nil =>
      simp only [if_pos rfl]
      exact ⟨fun _ => ⟨g, rfl, hf⟩, fun _ => rfl⟩
    | cons f fs =>
      rw [if_neg (by simp)]
      constructor
      · intro h
        exact absurd h (intercalate_cons_ne_nil _ _ _ (fmtFail_ne_nil f))
      · rintro ⟨g', hg', hrun⟩
        injection hg' with hgg
        subst hgg
        rw [hf] at hrun
        exact absurd hrun (by simp)

/-- C1: after construction and after every apply, the feedback is the
empty string iff executing the newline-joined buffer raises no error and
every test statement then executes against the populated namespace
without raising; otherwise it is the (non-empty) traceback or the
aggregation of failing-test records. -/
theorem claim_C1 {Ns : Type} (ex : ExecOracle Ns) (tests : List Str)
    (htb : ∀ s e, ex.execProgram s = .error e → e ≠ []) :
    (∀ lines, (initEnv ex tests lines).feedback = [] ↔ passCond ex tests lines) ∧
    (∀ st action, (envApply ex tests st action).feedback = [] ↔
      passCond ex tests (apply st.code_lines action)) := by
  refine ⟨fun lines => ?_, fun st action => ?_⟩
  · exact DSLrun_eq_nil_iff ex tests (joinNL lines) htb
  · exact DSLrun_eq_nil_iff ex tests (joinNL (apply st.code_lines action)) htb

/-- Closed instance of `claim_C1` under a trivially succeeding oracle:
the feedback after construction is empty. -/
theorem claim_C1_witness :
    (initEnv (⟨fun _ => .ok (), fun g _ => (g, none)⟩ : ExecOracle Unit)
      [] [strL "x"]).feedback = [] := by
  have h := (claim_C1 (⟨fun _ => .ok (), fun g _ => (g, none)⟩ : ExecOracle Unit)
    [] (fun _ _ h => by cases h)).1 [strL "x"]
  exact h.mpr ⟨(), rfl, rfl⟩

/-- Closed instance of `claim_C2_amended`: an unrecognized verb and a
non-integer DELL argument are no-ops, and whitespace-only text raises. -/
theorem claim_C2_amended_witness :
    apply [strL "a"] (strL "FOO 1") = [strL "a"] ∧
    apply [strL "a"] (strL "DELL x") = [strL "a"] ∧
    applyOk (strL "  ") = false := by
  refine ⟨?_, ?_, ?_⟩
  · exact ((claim_C2_amended [strL "a"] (strL "FOO 1")).2 (strL "FOO")
      [strL "1"] (by decide)).1 (by decide)
  · exact (((claim_C2_amended [strL "a"] (strL "DELL x")).2 (strL "DELL")
      [strL "x"] (by decide)).2.1 (by decide)).1 (strL "x") [] rfl (by decide)
  · exact (claim_C2_amended [strL "a"] (strL "  ")).1 (by decide)

/-- Python `" ".join(words)`. -/
def spaceJoin (ws : List Str) : Str :=
  List.intercalate (strL " ") ws

/-- The corrupted word built by `typo_word`: replace the character at
`pos` with `letter` when the word has more than one character, else
append `letter`. -/
def typoChar (w : Str) (pos : Nat) (letter : Char) : Str :=
  if 1 < w.length then w.take pos ++ letter :: w.drop (pos + 1)
  else w ++ [letter]

/-- `corruptor.typo_word` with the four random draws made explicit:
the chosen line `idx`, word index `wi`, character position `pos`, and
replacement `letter`. -/
def typo_word (lines : List Str) (idx wi pos : Nat) (letter : Char) : List Str :=
  if lines.isEmpty then lines
  else
    let words := pySplitWS (lines.getD idx [])
    if words.isEmpty then lines
    else
      lines.set idx (spaceJoin (words.set wi (typoChar (words.getD wi []) pos letter)))

theorem pySplitWSAux_tokens (l : Str) :
    ∀ acc, (∀ c ∈ acc, isWS c = false) →
      ∀ w ∈ pySplitWSAux l acc, w ≠ [] ∧ ∀ c ∈ w, isWS c = false := by
  induction l with
  | nil =>
    intro acc hacc w hw
    rw [pySplitWSAux] at hw
    split at hw
    · simp at hw
    · next hne =>
      simp only [List.mem_singleton] at hw
      subst hw
      exact ⟨by simpa [List.isEmpty_iff] using hne, hacc⟩
  | cons c r ih =>
    intro acc hacc w hw
    rw [pySplitWSAux] at hw
    split at hw
    · split at hw
      · exact ih [] (by simp) w hw
      · next hne =>
        rcases List.mem_cons.mp hw with h | h
        · subst h
          exact ⟨by simpa [List.isEmpty_iff] using hne, hacc⟩
        · exact ih [] (by simp) w h
    · next hc =>
      refine ih (acc ++ [c]) ?_ w hw
      intro d hd
      rcases List.mem_append.mp hd with h | h
      · exact hacc d h
      · simp only [List.mem_singleton] at h
        subst h
        simpa using hc

theorem pySplitWS_tokens (s : Str) :
    ∀ w ∈ pySplitWS s, w ≠ [] ∧ ∀ c ∈ w, isWS c = false :=
  pySplitWSAux_tokens s [] (by simp)

theorem pySplitWSAux_token_append (t : Str) (ht : ∀ c ∈ t, isWS c = false) :
    ∀ l acc, pySplitWSAux (t ++ l) acc = pySplitWSAux l (acc ++ t) := by
  induction t with
  | nil => simp
  | cons c t' ih =>
    intro l acc
    have hc : isWS c = false := ht c (by simp)
    rw [List.cons_append, pySplitWSAux, if_neg (by simp [hc]),
      ih (fun d hd => ht d (by simp [hd])) l (acc ++ [c])]
    simp

theorem intercalate_cons_cons (sep : Str) (x y : Str) (r : List Str) :
    List.intercalate sep (x :: y :: r) = x ++ sep ++ List.intercalate sep (y :: r) := by
  simp [List.intercalate, List.intersperse, List.append_assoc]

/-- Splitting a single-space join of non-empty whitespace-free words
recovers exactly the word list. -/
theorem pySplitWS_spaceJoin (ws : List Str)
    (h : ∀ w ∈ ws, w ≠ [] ∧ ∀ c ∈ w, isWS c = false) :
    pySplitWS (spaceJoin ws) = ws := by
  induction ws with
  | nil => rfl
  | cons w ws' ih =>
    obtain ⟨hw, hwf⟩ := h w (by simp)
    cases ws' with
    | nil =>
      show pySplitWSAux (List.intercalate (strL " ") [w]) [] = [w]
      rw [show List.intercalate (strL " ") [w] = w from by simp [List.intercalate, List.intersperse]]
      rw [show w = w ++ ([] : Str) from by simp, pySplitWSAux_token_append w hwf [] []]
      simp [pySplitWSAux, hw]
    | cons y r =>
      show pySplitWSAux (List.intercalate (strL " ") (w :: y :: r)) [] = w :: y :: r
      rw [intercalate_cons_cons]
      rw [List.append_assoc, pySplitWSAux_token_append w hwf _ []]
      have : strL " " ++ List.intercalate (strL " ") (y :: r) =
          ' ' :: List.intercalate (strL " ") (y :: r) := rfl
      rw [this, List.nil_append, pySplitWSAux, if_pos (by decide)]
      rw [if_neg (by simpa [List.isEmpty_iff] using hw)]
      have := ih (fun u hu => h u (by simp [hu]))
      exact congrArg (w :: ·) this

theorem typoChar_wordlike (w : Str) (pos : Nat) (letter : Char)
    (hw : w ≠ []) (hwf : ∀ c ∈ w, isWS c = false) (hl : isWS letter = false) :
    typoChar w pos letter ≠ [] ∧ ∀ c ∈ typoChar w pos letter, isWS c = false := by
  rw [typoChar]
  split
  · constructor
    · simp
    · intro c hc
      rcases List.mem_append.mp hc with h | h
      · exact hwf c (List.take_subset _ _ h)
      · rcases List.mem_cons.mp h with h | h
        · subst h; exact hl
        · exact hwf c (List.drop_subset _ _ h)
  · constructor
    · simp [hw]
    · intro c hc
      rcases List.mem_append.mp hc with h | h
      · exact hwf c h
      · simp only [List.mem_singleton] at h
        subst h
        exact hl

theorem mem_set_cases {α : Type} (l : List α) (i : Nat) (x : α) (y : α)
    (hy : y ∈ l.set i x) : y = x ∨ y ∈ l := by
  induction l generalizing i with
  | nil => simp [List.set] at hy
  | cons a t ih =>
    cases i with
    | zero =>
      rcases List.mem_cons.mp hy with h | h
      · exact Or.inl h
      · exact Or.inr (by simp [h])
    | succ n =>
      rcases List.mem_cons.mp hy with h | h
      · exact Or.inr (by simp [h])
      · rcases ih n h with h | h
        · exact Or.inl h
        · exact Or.inr (by simp [h])

theorem get?_set_ne {α : Type} (l : List α) (i j : Nat) (x : α) (h : j ≠ i) :
    (l.set i x).get? j = l.get? j := by
  induction l generalizing i j with
  | nil => simp [List.set]
  | cons a t ih =>
    cases i with
    | zero =>
      cases j with
      | zero => exact absurd rfl h
      | succ m => simp [List.set]
    | succ n =>
      cases j with
      | zero => simp [List.set]
      | succ m => simpa [List.set] using ih n m (by omega)

/-- C10: whenever the chosen line splits into at least one word,
`typo_word` rejoins the modified words with single spaces — splitting the
new line recovers exactly the modified word list (every maximal
whitespace run, including indentation, has been collapsed to one
separating space, leading/trailing whitespace dropped) — and every other
line is unchanged. -/
theorem claim_C10 (lines : List Str) (idx wi pos : Nat) (letter : Char)
    (hidx : idx < lines.length)
    (hw : pySplitWS (lines.getD idx []) ≠ [])
    (hwi : wi < (pySplitWS (lines.getD idx [])).length)
    (hletter : letter ∈ strL "abcdefghijklmnopqrstuvwxyz") :
    typo_word lines idx wi pos letter =
      lines.set idx (spaceJoin ((pySplitWS (lines.getD idx [])).set wi
        (typoChar ((pySplitWS (lines.getD idx [])).getD wi []) pos letter))) ∧
    pySplitWS (spaceJoin ((pySplitWS (lines.getD idx [])).set wi
        (typoChar ((pySplitWS (lines.getD idx [])).getD wi []) pos letter))) =
      (pySplitWS (lines.getD idx [])).set wi
        (typoChar ((pySplitWS (lines.getD idx [])).getD wi []) pos letter) ∧
    (∀ j, j ≠ idx → (typo_word lines idx wi pos letter).get? j = lines.get? j) := by
  have hlines : lines.isEmpty = false := by
    cases lines
    · simp at hidx
    · rfl
  have hletterws : isWS letter = false := by
    have hall : ∀ c ∈ strL "abcdefghijklmnopqrstuvwxyz", isWS c = false := by decide
    exact hall letter hletter
  have getD_mem : ∀ (l : List Str) (i : Nat), i < l.length → l.getD i [] ∈ l := by
    intro l
    induction l with
    | nil => intro i hi; simp at hi
    | cons a t ih =>
      intro i hi
      cases i with
      | zero => simp [List.getD]
      | succ n =>
        simp only [List.length_cons, Nat.succ_lt_succ_iff] at hi
        simpa [List.getD] using Or.inr (by simpa [List.getD] using ih n hi)
  have hmem : (pySplitWS (lines.getD idx [])).getD wi [] ∈ pySplitWS (lines.getD idx []) :=
    getD_mem _ wi hwi
  obtain ⟨hwne, hwf⟩ := pySplitWS_tokens _ _ hmem
  obtain ⟨h2ne, h2f⟩ := typoChar_wordlike _ pos letter hwne hwf hletterws
  have hwe : (pySplitWS (lines.getD idx [])).isEmpty = false := by
    cases hsp : pySplitWS (lines.getD idx []) with
    | nil => exact absurd hsp hw
    | cons a b => rfl
  have heq : typo_word lines idx wi pos letter =
      lines.set idx (spaceJoin ((pySplitWS (lines.getD idx [])).set wi
        (typoChar ((pySplitWS (lines.getD idx [])).getD wi []) pos letter))) := by
    simp only [typo_word, hlines, hwe, Bool.false_eq_true, if_false]
  refine ⟨heq, ?_, ?_⟩
  · refine pySplitWS_spaceJoin _ ?_
    intro u hu
    rcases mem_set_cases _ _ _ _ hu with h | h
    · subst h
      exact ⟨h2ne, h2f⟩
    · exact pySplitWS_tokens _ u h
  · intro j hj
    rw [heq]
    exact get?_set_ne _ _ _ _ hj

/-- Closed instance of `claim_C10`: corrupting the line `"  a  bb"` at
word 0, position 0, letter `q` yields `"aq bb"` with whitespace
collapsed. -/
theorem claim_C10_witness :
    typo_word [strL "  a  bb", strL "z"] 0 0 0 'q' = [strL "aq bb", strL "z"] ∧
    (typo_word [strL "  a  bb", strL "z"] 0 0 0 'q').get? 1 = some (strL "z") := by
  have h := claim_C10 [strL "  a  bb", strL "z"] 0 0 0 'q'
    (by decide) (by decide) (by decide) (by decide)
  refine ⟨?_, h.2.2 1 (by decide)⟩
  rw [h.1]
  decide

/-- One recorded step of a rollout: the dict appended to `traj` in
`rollout_one` (log-probabilities, produced by the external policy, are
carried opaquely as rationals). -/
structure Step where
  prompt : Str
  action : Str
  logp : ℚ
  reward : ℚ
deriving Repr, DecidableEq

/-- Python line-break characters recognized by `str.splitlines()`. -/
def isLineBreak (c : Char) : Bool :=
  c = '\n' || c = '\r' || c = '\x0b' || c = '\x0c' || c = '\x1c' || c = '\x1d' ||
    c = '\x1e' || c = '\x85' || c = '\u2028' || c = '\u2029'

/-- `action.splitlines()[0] if action else "EXIT"`: the Rollout Driver's
defensive truncation of the sampled text. -/
def firstLineOrExit (raw : Str) : Str :=
  if raw = [] then strL "EXIT"
  else raw.takeWhile (fun c => !isLineBreak c)

/-- `action.startswith(("DELL", "ADDL", "REPL", "REPW", "EXIT"))`. -/
def startsWithVerb (action : Str) : Bool :=
  isPre (strL "DELL") action || isPre (strL "ADDL") action ||
    isPre (strL "REPL") action || isPre (strL "REPW") action ||
    isPre (strL "EXIT") action

/-- The per-step reward of `rollout_one` before the retroactive
adjustment: +1 on a non-empty-to-empty feedback transition, and an
additional -1/2 when the action does not start with a command verb. -/
def stepReward (before after : Str) (action : Str) : ℚ :=
  (if after = [] ∧ before ≠ [] then 1 else 0) +
    (if !startsWithVerb action then -(1 / 2) else 0)

/-- The turn loop of `rollout_one`: `t` is the current turn index, the
last argument the remaining turns.  The sampled policy text and its
log-probability are oracles indexed by the turn.  `none` models the
`IndexError` Python raises at `parts[0]` when the action has no tokens. -/
def rolloutLoop {Ns : Type} (ex : ExecOracle Ns) (tests : List Str)
    (pol : Nat → Str) (lp : Nat → ℚ) :
    EnvState → Nat → Nat → Option (List Step × EnvState)
  | env, _, 0 => some ([], env)
  | env, t, r + 1 =>
    let prompt := render env ++ strL "\n### "
    let action := firstLineOrExit (pol t)
    if applyOk action then
      let st' := envApply ex tests env action
      let step : Step := ⟨prompt, action, lp t, stepReward env.feedback st'.feedback action⟩
      if isPre (strL "EXIT") action then some ([step], st')
      else (rolloutLoop ex tests pol lp st' (t + 1) r).map (fun p => (step :: p.1, p.2))
    else none

/-- `rollout_one`: run the loop from the freshly constructed environment,
then retroactively subtract 0.5 from the last step's reward if the final
feedback is empty but the last recorded action does not start with EXIT
(`none` also models the `traj[-1]` IndexError on an empty successful
trajectory). -/
def rollout_one {Ns : Type} (ex : ExecOracle Ns) (tests : List Str)
    (pol : Nat → Str) (lp : Nat → ℚ) (init_code_lines : List Str)
    (max_turns : Nat) : Option (List Step) :=
  match rolloutLoop ex tests pol lp (initEnv ex tests init_code_lines) 0 max_turns with
  | none => none
  | some (traj, envEnd) =>
    if envEnd.feedback = [] then
      match traj.getLast? with
      | none => none
      | some lastStep =>
        if isPre (strL "EXIT") lastStep.action then some traj
        else some (traj.dropLast ++ [{ lastStep with reward := lastStep.reward - 1 / 2 }])
    else some traj

/-- The action the Rollout Driver derives from the turn-`t` sample. -/
def actionAt (pol : Nat → Str) (t : Nat) : Str :=
  firstLineOrExit (pol t)

/-- The environment state after `k` applies starting from `env` at
absolute turn `t` (the reference trace of the rollout loop). -/
def stateFrom {Ns : Type} (ex : ExecOracle Ns) (tests : List Str)
    (pol : Nat → Str) (env : EnvState) (t : Nat) : Nat → EnvState
  | 0 => env
  | k + 1 => envApply ex tests (stateFrom ex tests pol env t k) (actionAt pol (t + k))

theorem stateFrom_shift {Ns : Type} (ex : ExecOracle Ns) (tests : List Str)
    (pol : Nat → Str) :
    ∀ (k : Nat) (env : EnvState) (t : Nat),
      stateFrom ex tests pol env t (k + 1) =
        stateFrom ex tests pol (envApply ex tests env (actionAt pol t)) (t + 1) k := by
  intro k
  induction k with
  | zero =>
    intro env t
    show envApply ex tests (stateFrom ex tests pol env t 0) (actionAt pol (t + 0)) = _
    rw [Nat.add_zero]
    rfl
  | succ k ih =>
    intro env t
    show envApply ex tests (stateFrom ex tests pol env t (k + 1)) (actionAt pol (t + (k + 1))) =
      envApply ex tests (stateFrom ex tests pol (envApply ex tests env (actionAt pol t)) (t + 1) k)
        (actionAt pol (t + 1 + k))
    rw [ih env t, show t + (k + 1) = t + 1 + k from by omega]

/-- Full characterization of the rollout loop's output: the final
environment, every recorded step, and the fact that only the last
recorded action can start with EXIT. -/
theorem rolloutLoop_spec {Ns : Type} (ex : ExecOracle Ns) (tests : List Str)
    (pol : Nat → Str) (lp : Nat → ℚ) :
    ∀ (r : Nat) (env : EnvState) (t : Nat) (traj : List Step) (envEnd : EnvState),
      rolloutLoop ex tests pol lp env t r = some (traj, envEnd) →
      envEnd = stateFrom ex tests pol env t traj.length ∧
      (∀ k, k < traj.length →
        traj.get? k = some ⟨render (stateFrom ex tests pol env t k) ++ strL "\n### ",
          actionAt pol (t + k), lp (t + k),
          stepReward (stateFrom ex tests pol env t k).feedback
            (stateFrom ex tests pol env t (k + 1)).feedback (actionAt pol (t + k))⟩) ∧
      (∀ k, k + 1 < traj.length → isPre (strL "EXIT") (actionAt pol (t + k)) = false) := by
  intro r
  induction r with
  | zero =>
    intro env t traj envEnd h
    rw [rolloutLoop] at h
    injection h with h
    injection h with h1 h2
    subst h1
    subst h2
    exact ⟨rfl, fun k hk => by simp at hk, fun k hk => by simp at hk⟩
  | succ r ih =>
    intro env t traj envEnd h
    rw [rolloutLoop] at h
    by_cases hok : applyOk (firstLineOrExit (pol t)) = true
    · rw [if_pos hok] at h
      by_cases hex : isPre (strL "EXIT") (firstLineOrExit (pol t)) = true
      · rw [if_pos hex] at h
        injection h with h
        injection h with h1 h2
        subst h1
        subst h2
        refine ⟨rfl, ?_, ?_⟩
        · intro k hk
          simp only [List.length_cons, List.length_nil] at hk
          have hk0 : k = 0 := by omega
          subst hk0
          show some _ = some _
          congr 1
        · intro k hk
          simp only [List.length_cons, List.length_nil] at hk
          omega
      · rw [if_neg hex] at h
        cases hrec : rolloutLoop ex tests pol lp
            (envApply ex tests env (firstLineOrExit (pol t))) (t + 1) r with
        | none => rw [hrec] at h; simp at h
        | some p =>
          rw [hrec] at h
          simp only [Option.map_some'] at h
          injection h with h
          injection h with h1 h2
          obtain ⟨rest, end'⟩ := p
          simp only at h1 h2
          subst h2
          obtain ⟨ih1, ih2, ih3⟩ := ih _ (t + 1) rest end' hrec
          subst h1
          have hact : actionAt pol t = firstLineOrExit (pol t) := rfl
          refine ⟨?_, ?_, ?_⟩
          · rw [ih1, List.length_cons, stateFrom_shift, hact]
          · intro k hk
            cases k with
            | zero => rfl
            | succ k =>
              simp only [List.length_cons, Nat.succ_lt_succ_iff] at hk
              rw [List.get?_cons_succ, ih2 k hk,
                stateFrom_shift ex tests pol k env t,
                stateFrom_shift ex tests pol (k + 1) env t, hact,
                show t + (k + 1) = t + 1 + k from by omega]
          · intro k hk
            cases k with
            | zero =>
              simpa [actionAt, Nat.add_zero] using hex
            | succ k =>
              simp only [List.length_cons, Nat.succ_lt_succ_iff] at hk
              have := ih3 k hk
              rwa [show t + 1 + k = t + (k + 1) from by omega] at this
    · rw [if_neg hok] at h
      exact absurd h (by simp)

theorem dropLast_append_getLast?_eq {α : Type} :
    ∀ (l : List α) (a : α), l.getLast? = some a → l.dropLast ++ [a] = l := by
  intro l
  induction l with
  | nil => intro a h; simp at h
  | cons b t ih =>
    intro a h
    cases t with
    | nil =>
      simp only [List.getLast?_singleton, Option.some.injEq] at h
      subst h
      rfl
    | cons c u =>
      rw [List.getLast?_cons_cons] at h
      have := ih a h
      simp only [List.dropLast_cons₂, List.cons_append, this]

theorem rolloutLoop_length_le {Ns : Type} (ex : ExecOracle Ns) (tests : List Str)
    (pol : Nat → Str) (lp : Nat → ℚ) :
    ∀ (r : Nat) (env : EnvState) (t : Nat) (traj : List Step) (envEnd : EnvState),
      rolloutLoop ex tests pol lp env t r = some (traj, envEnd) → traj.length ≤ r := by
  intro r
  induction r with
  | zero =>
    intro env t traj envEnd h
    rw [rolloutLoop] at h
    injection h with h
    injection h with h1 _
    subst h1
    simp
  | succ r ih =>
    intro env t traj envEnd h
    rw [rolloutLoop] at h
    by_cases hok : applyOk (firstLineOrExit (pol t)) = true
    · rw [if_pos hok] at h
      by_cases hex : isPre (strL "EXIT") (firstLineOrExit (pol t)) = true
      · rw [if_pos hex] at h
        injection h with h
        injection h with h1 _
        subst h1
        simp
      · rw [if_neg hex] at h
        cases hrec : rolloutLoop ex tests pol lp
            (envApply ex tests env (firstLineOrExit (pol t))) (t + 1) r with
        | none => rw [hrec] at h; simp at h
        | some p =>
          rw [hrec] at h
          simp only [Option.map_some'] at h
          injection h with h
          injection h with h1 _
          subst h1
          have := ih _ (t + 1) p.1 p.2 (by rw [hrec])
          simpa using Nat.succ_le_succ this
    · rw [if_neg hok] at h
      exact absurd h (by simp)

/-- `get?` through the "modify the last element" operation of the
retroactive reward adjustment. -/
theorem modLast_get? {α : Type} (l : List α) (a : α) (f : α → α)
    (h : l.getLast? = some a) :
    ∀ k, (l.dropLast ++ [f a]).get? k =
      if k + 1 = l.length then some (f a) else l.get? k := by
  have hl : l.dropLast ++ [a] = l := dropLast_append_getLast?_eq l a h
  have hdl : l.dropLast.length + 1 = l.length := by
    have := congrArg List.length hl
    simpa using this
  intro k
  by_cases hk : k + 1 = l.length
  · rw [if_pos hk, List.get?_append_right (by omega),
      show k - l.dropLast.length = 0 from by omega]
    rfl
  · rw [if_neg hk]
    by_cases hk2 : k < l.dropLast.length
    · rw [List.get?_append hk2]
      conv_rhs => rw [← hl]
      rw [List.get?_append hk2]
    · have h1 : (l.dropLast ++ [f a]).get? k = none := by
        rw [List.get?_eq_none]
        simp only [List.length_append, List.length_cons, List.length_nil]
        omega
      have h2 : l.get? k = none := by
        rw [List.get?_eq_none]
        omega
      rw [h1, h2]

/-- Characterization of `rollout_one`'s output in terms of the loop's
output: same steps, except that the last step's reward is lowered by 1/2
exactly when the final feedback is empty and the last action does not
start with EXIT. -/
theorem rollout_one_get? {Ns : Type} (ex : ExecOracle Ns) (tests : List Str)
    (pol : Nat → Str) (lp : Nat → ℚ) (init : List Str) (maxT : Nat)
    (traj : List Step)
    (h : rollout_one ex tests pol lp init maxT = some traj) :
    ∃ loopT envEnd,
      rolloutLoop ex tests pol lp (initEnv ex tests init) 0 maxT = some (loopT, envEnd) ∧
      traj.length = loopT.length ∧
      ∀ k, traj.get? k = (loopT.get? k).map (fun s =>
        if k + 1 = loopT.length ∧ envEnd.feedback = [] ∧
            isPre (strL "EXIT") (actionAt pol (loopT.length - 1)) = false
          then { s with reward := s.reward - 1 / 2 } else s) := by
  rw [rollout_one] at h
  cases hloop : rolloutLoop ex tests pol lp (initEnv ex tests init) 0 maxT with
  | none => rw [hloop] at h; exact absurd h (by simp)
  | some p =>
    obtain ⟨loopT, envEnd⟩ := p
    rw [hloop] at h
    simp only at h
    refine ⟨loopT, envEnd, rfl, ?_⟩
    obtain ⟨-, hsteps, -⟩ := rolloutLoop_spec ex tests pol lp maxT _ 0 loopT envEnd hloop
    by_cases hfb : envEnd.feedback = []
    · rw [if_pos hfb] at h
      cases hlast : loopT.getLast? with
      | none => rw [hlast] at h; simp at h
      | some lastStep =>
        rw [hlast] at h
        dsimp only at h
        have hlen : 0 < loopT.length := by
          cases loopT
          · simp at hlast
          · simp
        have hlget : loopT.get? (loopT.length - 1) = some lastStep := by
          rw [← List.getLast?_eq_get?, hlast]
        have hlaction : lastStep.action = actionAt pol (loopT.length - 1) := by
          have := hsteps (loopT.length - 1) (by omega)
          rw [hlget] at this
          injection this with this
          rw [this]
          simp only [Nat.zero_add]
        by_cases hexit : isPre (strL "EXIT") lastStep.action = true
        · rw [if_pos hexit] at h
          injection h with h
          subst h
          refine ⟨rfl, ?_⟩
          intro k
          have hcond : ¬(k + 1 = loopT.length ∧ envEnd.feedback = [] ∧
              isPre (strL "EXIT") (actionAt pol (loopT.length - 1)) = false) := by
            intro hc
            rw [← hlaction] at hc
            rw [hexit] at hc
            exact absurd hc.2.2 (by simp)
          cases hgk : loopT.get? k with
          | none => rfl
          | some s =>
            simp only [Option.map_some']
            rw [if_neg hcond]
        · rw [if_neg hexit] at h
          injection h with h
          subst h
          have hcond : (fun k => k + 1 = loopT.length ∧ envEnd.feedback = [] ∧
              isPre (strL "EXIT") (actionAt pol (loopT.length - 1)) = false) =
              fun k => k + 1 = loopT.length := by
            funext k
            simp only [eq_iff_iff]
            constructor
            · intro hc; exact hc.1
            · intro hc
              exact ⟨hc, hfb, by rw [← hlaction]; simpa using hexit⟩
          constructor
          · rw [List.length_append, List.length_dropLast, List.length_cons, List.length_nil]
            omega
          · intro k
            have hml := modLast_get? loopT lastStep
              (fun s => { s with reward := s.reward - 1 / 2 }) hlast k
            rw [hml]
            by_cases hk : k + 1 = loopT.length
            · rw [if_pos hk, show k = loopT.length - 1 from by omega, hlget]
              simp only [Option.map_some']
              rw [if_pos ⟨by omega, hfb, by rw [← hlaction]; simpa using hexit⟩]
            · rw [if_neg hk]
              have : ¬(k + 1 = loopT.length ∧ envEnd.feedback = [] ∧
                  isPre (strL "EXIT") (actionAt pol (loopT.length - 1)) = false) := by
                intro hc; exact hk hc.1
              cases hgk : loopT.get? k with
              | none => rfl
              | some s =>
                simp only [Option.map_some']
                rw [if_neg this]
    · rw [if_neg hfb] at h
      injection h with h
      subst h
      refine ⟨rfl, ?_⟩
      intro k
      cases hgk : loopT.get? k with
      | none => rfl
      | some s =>
        simp only [Option.map_some']
        rw [if_neg (fun hc => hfb hc.2.1)]

/-- An execution oracle whose program always loads and whose tests never
raise (as with an empty test list over trivially valid code): feedback is
always empty. -/
def oracleOK : ExecOracle Unit :=
  ⟨fun _ => .ok (), fun g _ => (g, none)⟩

/-- An execution oracle whose program always raises with traceback `"E"`:
feedback is always `"E"`. -/
def oracleErr : ExecOracle Unit :=
  ⟨fun _ => .error (strL "E"), fun g _ => (g, none)⟩

/-- C3 counterexample: with an environment whose feedback is empty from
the very first apply, the loop still records three steps — a step IS
recorded after a step whose apply left the feedback empty (only EXIT or
the budget stops the loop). -/
theorem claim_C3_counterexample :
    (rollout_one oracleOK [] (fun _ => strL "DELL 99") (fun _ => 0) [] 3).map
        (fun traj => traj.map Step.action) =
      some [strL "DELL 99", strL "DELL 99", strL "DELL 99"] ∧
    (envApply oracleOK [] (initEnv oracleOK [] []) (strL "DELL 99")).feedback = [] := by
  constructor
  · rfl
  · rfl

/-- C3 amended: a trajectory stops early only on an EXIT-prefixed action
or when the turn budget is exhausted: its length never exceeds the
budget and no step is recorded after a step whose action starts with
EXIT.  (Empty feedback does not stop the loop.) -/
theorem claim_C3_amended {Ns : Type} (ex : ExecOracle Ns) (tests : List Str)
    (pol : Nat → Str) (lp : Nat → ℚ) (init : List Str) (maxT : Nat)
    (traj : List Step) (h : rollout_one ex tests pol lp init maxT = some traj) :
    traj.length ≤ maxT ∧
    ∀ k s, k + 1 < traj.length → traj.get? k = some s →
      isPre (strL "EXIT") s.action = false := by
  obtain ⟨loopT, envEnd, hloop, hlen, hget⟩ := rollout_one_get? ex tests pol lp init maxT traj h
  obtain ⟨-, hsteps, hnoexit⟩ := rolloutLoop_spec ex tests pol lp maxT _ 0 loopT envEnd hloop
  have hbound := rolloutLoop_length_le ex tests pol lp maxT _ 0 loopT envEnd hloop
  refine ⟨by omega, ?_⟩
  intro k s hk hks
  rw [hget k] at hks
  cases hgk : loopT.get? k with
  | none => rw [hgk] at hks; simp at hks
  | some s' =>
    rw [hgk] at hks
    simp only [Option.map_some'] at hks
    injection hks with hks
    have hact : s.action = s'.action := by
      rw [← hks]
      split
      · rfl
      · rfl
    have hklen : k < loopT.length := by omega
    have hs' := hsteps k hklen
    rw [hgk] at hs'
    injection hs' with hs'
    have hact2 : s'.action = actionAt pol (0 + k) := by rw [hs']
    rw [hact, hact2, Nat.zero_add]
    have := hnoexit k (by omega)
    rwa [Nat.zero_add] at this

/-- Closed instance of `claim_C3_amended` on a concrete two-step
trajectory. -/
theorem claim_C3_amended_witness :
    isPre (strL "EXIT") (strL "DELL 1") = false := by
  have h := claim_C3_amended oracleErr []
    (fun t => if t = 0 then strL "DELL 1" else strL "EXIT") (fun _ => 0) [] 2
    [⟨strL "\n***\nE\n### ", strL "DELL 1", 0,
        stepReward (strL "E") (strL "E") (strL "DELL 1")⟩,
     ⟨strL "\n***\nE\n### ", strL "EXIT", 0,
        stepReward (strL "E") (strL "E") (strL "EXIT")⟩] rfl
  exact h.2 0 ⟨strL "\n***\nE\n### ", strL "DELL 1", 0,
    stepReward (strL "E") (strL "E") (strL "DELL 1")⟩ (by decide) rfl

/-- C5 counterexample: the action `"DELLX"`, whose leading token is not
one of the five command verbs, receives reward 0 rather than the claimed
-0.5 — the code tests a string prefix, not the leading token. -/
theorem claim_C5_counterexample :
    (rollout_one oracleErr [] (fun t => if t = 0 then strL "DELLX" else strL "EXIT")
        (fun _ => 0) [] 2).map (fun traj => traj.map Step.action) =
      some [strL "DELLX", strL "EXIT"] ∧
    (rollout_one oracleErr [] (fun t => if t = 0 then strL "DELLX" else strL "EXIT")
        (fun _ => 0) [] 2).map (fun traj => traj.map Step.reward) =
      some [0, 0] ∧
    (pySplitWS (strL "DELLX")).getD 0 [] ∉
      [strL "DELL", strL "ADDL", strL "REPL", strL "REPW", strL "EXIT"] ∧
    (0 : ℚ) ≠ -(1 / 2) := by
  have hr : (rollout_one oracleErr [] (fun t => if t = 0 then strL "DELLX" else strL "EXIT")
      (fun _ => 0) [] 2).map (fun traj => traj.map Step.reward) =
      some [stepReward (strL "E") (strL "E") (strL "DELLX"),
            stepReward (strL "E") (strL "E") (strL "EXIT")] := rfl
  have h1 : stepReward (strL "E") (strL "E") (strL "DELLX") = 0 := by
    rw [stepReward, if_neg (by decide), if_neg (by decide)]
    norm_num
  have h2 : stepReward (strL "E") (strL "E") (strL "EXIT") = 0 := by
    rw [stepReward, if_neg (by decide), if_neg (by decide)]
    norm_num
  refine ⟨rfl, ?_, by decide, by norm_num⟩
  rw [hr, h1, h2]

/-- C5 amended: each step's reward is +1 exactly on a
non-empty-to-empty feedback transition, plus an additional -1/2 when the
action text does not START WITH one of the five command verbs (a prefix
test, not a leading-token test); after the loop, 1/2 is subtracted from
the last step's reward exactly when the final feedback is empty and the
last action does not start with EXIT. -/
theorem claim_C5_amended {Ns : Type} (ex : ExecOracle Ns) (tests : List Str)
    (pol : Nat → Str) (lp : Nat → ℚ) (init : List Str) (maxT : Nat)
    (traj : List Step) (h : rollout_one ex tests pol lp init maxT = some traj) :
    ∀ k s, traj.get? k = some s →
      s.reward =
        stepReward (stateFrom ex tests pol (initEnv ex tests init) 0 k).feedback
          (stateFrom ex tests pol (initEnv ex tests init) 0 (k + 1)).feedback
          (actionAt pol k)
        - (if k + 1 = traj.length ∧
            (stateFrom ex tests pol (initEnv ex tests init) 0 traj.length).feedback = [] ∧
            isPre (strL "EXIT") (actionAt pol (traj.length - 1)) = false
           then 1 / 2 else 0) := by
  obtain ⟨loopT, envEnd, hloop, hlen, hget⟩ := rollout_one_get? ex tests pol lp init maxT traj h
  obtain ⟨henv, hsteps, -⟩ := rolloutLoop_spec ex tests pol lp maxT _ 0 loopT envEnd hloop
  intro k s hks
  rw [hget k] at hks
  cases hgk : loopT.get? k with
  | none => rw [hgk] at hks; simp at hks
  | some s' =>
    rw [hgk] at hks
    simp only [Option.map_some'] at hks
    injection hks with hks
    have hklen : k < loopT.length := by
      by_contra hc
      rw [List.get?_eq_none.mpr (by omega)] at hgk
      exact absurd hgk (by simp)
    have hs' := hsteps k hklen
    rw [hgk] at hs'
    injection hs' with hs'
    rw [← hks, hlen, henv, hs']
    by_cases hc : k + 1 = loopT.length ∧
        (stateFrom ex tests pol (initEnv ex tests init) 0 loopT.length).feedback = [] ∧
        isPre (strL "EXIT") (actionAt pol (loopT.length - 1)) = false
    · rw [if_pos hc, if_pos hc]
      simp only [Nat.zero_add]
    · rw [if_neg hc, if_neg hc]
      simp only [Nat.zero_add]
      exact (sub_zero _).symm

/-- Closed instance of `claim_C5_amended` on a concrete one-step
trajectory ending in EXIT with non-empty feedback. -/
theorem claim_C5_amended_witness :
    stepReward (strL "E") (strL "E") (strL "EXIT") =
      stepReward (strL "E") (strL "E") (strL "EXIT") - 0 := by
  have h := claim_C5_amended oracleErr [] (fun _ => strL "EXIT") (fun _ => 0) [] 1
    [⟨strL "\n***\nE\n### ", strL "EXIT", 0,
        stepReward (strL "E") (strL "E") (strL "EXIT")⟩] rfl
  have h0 := h 0 ⟨strL "\n***\nE\n### ", strL "EXIT", 0,
    stepReward (strL "E") (strL "E") (strL "EXIT")⟩ rfl
  have hC : ¬(0 + 1 = ([⟨strL "\n***\nE\n### ", strL "EXIT", 0,
      stepReward (strL "E") (strL "E") (strL "EXIT")⟩] : List Step).length ∧
      (stateFrom oracleErr [] (fun _ => strL "EXIT") (initEnv oracleErr [] []) 0
        ([⟨strL "\n***\nE\n### ", strL "EXIT", 0,
          stepReward (strL "E") (strL "E") (strL "EXIT")⟩] : List Step).length).feedback = [] ∧
      isPre (strL "EXIT") (actionAt (fun _ => strL "EXIT")
        (([⟨strL "\n***\nE\n### ", strL "EXIT", 0,
          stepReward (strL "E") (strL "E") (strL "EXIT")⟩] : List Step).length - 1)) = false) := by
    intro hc
    exact absurd hc.2.1 (by decide)
  rw [if_neg hC] at h0
  exact h0

/-- Per-trajectory discounted returns of
`compute_returns_and_advantages`: the backward loop
`future = reward + gamma * future` materialized front-to-back. -/
def discountedReturns (gamma : ℚ) : List Step → List ℚ
  | [] => []
  | s :: rest =>
    (s.reward + gamma * (discountedReturns gamma rest).headD 0) :: discountedReturns gamma rest

/-- The `vals` list at turn `t`: the returns of exactly those
trajectories that have a step at `t`, in trajectory order. -/
def turnVals (returns : List (List ℚ)) (t : Nat) : List ℚ :=
  returns.filterMap (fun R => R.get? t)

/-- The per-turn mean and normalizer: Bessel-corrected sample standard
deviation with the variance floored at 1e-6 (the float literal `1e-6` is
modelled by the rational 1/1000000), `(vals[0], 1)` for a single value,
`(0, 1)` for none.  `math.sqrt` is the abstract parameter `sqrtFn`. -/
def muSigma (sqrtFn : ℚ → ℚ) (vals : List ℚ) : ℚ × ℚ :=
  if 2 ≤ vals.length then
    let mu := vals.sum / vals.length
    let var := (vals.map (fun v => (v - mu) ^ 2)).sum / ((vals.length : ℚ) - 1)
    (mu, sqrtFn (max var (1 / 1000000)))
  else if vals.length = 1 then (vals.headD 0, 1)
  else (0, 1)

/-- The advantage formula at turn `t` for a trajectory whose return at
`t` is `v`: `(v - mu_t) / sigma_t`. -/
def advAt (sqrtFn : ℚ → ℚ) (returns : List (List ℚ)) (t : Nat) (v : ℚ) : ℚ :=
  (v - (muSigma sqrtFn (turnVals returns t)).1) / (muSigma sqrtFn (turnVals returns t)).2

/-- One iteration of the per-turn loop of
`compute_returns_and_advantages`: append `(vals[j] - mu) / sigma` to the
advantage row of every trajectory that has a step at `t`. -/
def stepTurn (sqrtFn : ℚ → ℚ) (returns : List (List ℚ)) (t : Nat)
    (advs : List (List ℚ)) : List (List ℚ) :=
  (returns.zip advs).map (fun p =>
    match p.1.get? t with
    | some v => p.2 ++ [(v - (muSigma sqrtFn (turnVals returns t)).1) /
        (muSigma sqrtFn (turnVals returns t)).2]
    | none => p.2)

/-- One flattened training step of `compute_returns_and_advantages`. -/
structure FlatStep where
  prompt : Str
  action : Str
  old_logp : ℚ
  adv : ℚ
deriving Repr, DecidableEq

/-- `compute_returns_and_advantages` (`src/rl_train.py`): per-trajectory
backward discounted returns, per-turn cross-trajectory normalization,
then flattening; `none` models the `ValueError` Python's `max()` raises
on an empty group. -/
def compute_returns_and_advantages (sqrtFn : ℚ → ℚ)
    (group_trajs : List (List Step)) (gamma : ℚ := 1) : Option (List FlatStep) :=
  if group_trajs.isEmpty then none
  else
    let max_T := (group_trajs.map List.length).foldl max 0
    let returns := group_trajs.map (discountedReturns gamma)
    let advantages := (List.range max_T).foldl
      (fun advs t => stepTurn sqrtFn returns t advs)
      (group_trajs.map (fun _ => []))
    some (group_trajs.enum.flatMap (fun it =>
      it.2.enum.map (fun ts =>
        ⟨ts.2.prompt, ts.2.action, ts.2.logp, (advantages.getD it.1 []).getD ts.1 0⟩)))

/-- The trajectory-wise returns of a group. -/
def returnsOf (gamma : ℚ) (group_trajs : List (List Step)) : List (List ℚ) :=
  group_trajs.map (discountedReturns gamma)

/-- Modelled from the spec's formula (section 4.5): the flattened steps
with the advantage of trajectory `i` at turn `t` given directly by
`(R_{i,t} - mu_t) / sigma_t`. -/
def specFlat (sqrtFn : ℚ → ℚ) (gamma : ℚ) (group_trajs : List (List Step)) : List FlatStep :=
  group_trajs.enum.flatMap (fun it =>
    it.2.enum.map (fun ts =>
      ⟨ts.2.prompt, ts.2.action, ts.2.logp,
        advAt sqrtFn (returnsOf gamma group_trajs) ts.1
          (((returnsOf gamma group_trajs).getD it.1 []).getD ts.1 0)⟩))

theorem discountedReturns_length (gamma : ℚ) (traj : List Step) :
    (discountedReturns gamma traj).length = traj.length := by
  induction traj with
  | nil => rfl
  | cons s rest ih => simp [discountedReturns, ih]

theorem zip_get?_eq {α β : Type} :
    ∀ (l1 : List α) (l2 : List β) (i : Nat) (a : α) (b : β),
      l1.get? i = some a → l2.get? i = some b → (l1.zip l2).get? i = some (a, b) := by
  intro l1
  induction l1 with
  | nil => intro l2 i a b h1; simp [List.get?] at h1
  | cons x t ih =>
    intro l2 i a b h1 h2
    cases l2 with
    | nil => simp [List.get?] at h2
    | cons y u =>
      cases i with
      | zero =>
        rw [List.get?_cons_zero] at h1 h2
        injection h1 with h1
        injection h2 with h2
        subst h1
        subst h2
        rfl
      | succ n =>
        rw [List.get?_cons_succ] at h1 h2
        simpa [List.zip_cons_cons] using ih u n a b h1 h2

theorem advLoop_get? (sqrtFn : ℚ → ℚ) (returns : List (List ℚ)) :
    ∀ (n : Nat) (i : Nat) (R : List ℚ), returns.get? i = some R →
      ((List.range n).foldl (fun advs t => stepTurn sqrtFn returns t advs)
          (returns.map (fun _ => ([] : List ℚ)))).get? i =
        some ((List.range n).filterMap (fun t => (R.get? t).map (advAt sqrtFn returns t))) := by
  intro n
  induction n with
  | zero =>
    intro i R hR
    rw [List.range_zero, List.foldl_nil, List.get?_map, hR]
    rfl
  | succ n ih =>
    intro i R hR
    rw [List.range_succ, List.foldl_append, List.foldl_cons, List.foldl_nil,
      stepTurn, List.get?_map, zip_get?_eq returns _ i R _ hR (ih i R hR),
      Option.map_some', List.filterMap_append]
    dsimp only
    cases hRn : R.get? n with
    | none =>
      simp only [List.filterMap_cons, List.filterMap_nil, hRn, Option.map_none',
        List.append_nil]
    | some v =>
      simp only [List.filterMap_cons, List.filterMap_nil, hRn, Option.map_some', advAt]

theorem filterMap_range_min (R : List ℚ) (g : Nat → ℚ → ℚ) :
    ∀ n, (List.range n).filterMap (fun u => (R.get? u).map (g u)) =
      (List.range (min n R.length)).map (fun u => g u (R.getD u 0)) := by
  intro n
  induction n with
  | zero => simp
  | succ n ih =>
    rw [List.range_succ, List.filterMap_append, ih]
    by_cases h : n < R.length
    · have h1 : min (n + 1) R.length = n + 1 := by omega
      have h2 : min n R.length = n := by omega
      have h3 : R.get? n = some (R.getD n 0) := by
        rw [List.getD_eq_get?]
        cases hg : R.get? n with
        | none => rw [List.get?_eq_none] at hg; omega
        | some v => rfl
      rw [h1, h2, List.range_succ, List.map_append]
      congr 1
      simp only [List.filterMap_cons, List.filterMap_nil, h3, Option.map_some',
        List.map_cons, List.map_nil]
    · have h1 : min (n + 1) R.length = min n R.length := by omega
      have h2 : R.get? n = none := List.get?_eq_none.mpr (by omega)
      rw [h1]
      simp only [List.filterMap_cons, List.filterMap_nil, h2, Option.map_none']
      simp

theorem mem_enum_bounds {α : Type} (l : List α) (i : Nat) (x : α)
    (h : (i, x) ∈ l.enum) : i < l.length ∧ l.get? i = some x := by
  obtain ⟨-, h2, h3⟩ := List.mem_enumFrom h
  rw [Nat.zero_add] at h2
  simp only [Nat.sub_zero] at h3
  refine ⟨h2, ?_⟩
  rw [List.get?_eq_getElem?, List.getElem?_eq_getElem h2]
  exact congrArg some h3.symm

theorem le_foldl_max_init : ∀ (l : List Nat) (a : Nat), a ≤ l.foldl max a := by
  intro l
  induction l with
  | nil => intro a; simp
  | cons b t ih =>
    intro a
    calc a ≤ max a b := le_max_left a b
      _ ≤ t.foldl max (max a b) := ih (max a b)

theorem foldl_max_ge :
    ∀ (l : List Nat) (a : Nat) (x : Nat), x ∈ l → x ≤ l.foldl max a := by
  intro l
  induction l with
  | nil => intro a x h; simp at h
  | cons b t ih =>
    intro a x h
    rcases List.mem_cons.mp h with h | h
    · subst h
      calc x ≤ max a x := le_max_right a x
        _ ≤ t.foldl max (max a x) := le_foldl_max_init t (max a x)
    · exact ih (max a b) x h

/-- The advantage the per-turn loop stores for trajectory `i` at turn
`t` equals the direct formula `(R_{i,t} - mu_t) / sigma_t`. -/
theorem adv_entry_eq (sqrtFn : ℚ → ℚ) (gamma : ℚ) (group : List (List Step))
    (i : Nat) (traj : List Step) (hi : group.get? i = some traj)
    (t : Nat) (ht : t < traj.length) :
    (((List.range ((group.map List.length).foldl max 0)).foldl
        (fun advs u => stepTurn sqrtFn (group.map (discountedReturns gamma)) u advs)
        (group.map (fun _ => []))).getD i []).getD t 0 =
      advAt sqrtFn (returnsOf gamma group) t
        (((returnsOf gamma group).getD i []).getD t 0) := by
  have hR : (group.map (discountedReturns gamma)).get? i =
      some (discountedReturns gamma traj) := by
    rw [List.get?_map, hi]
    rfl
  have hadv := advLoop_get? sqrtFn (group.map (discountedReturns gamma))
    ((group.map List.length).foldl max 0) i (discountedReturns gamma traj) hR
  have hmaxT : traj.length ≤ (group.map List.length).foldl max 0 :=
    foldl_max_ge _ 0 _ (List.mem_map_of_mem List.length (List.get?_mem hi))
  have hRlen : (discountedReturns gamma traj).length = traj.length :=
    discountedReturns_length gamma traj
  have hinit : (group.map (fun _ : List Step => ([] : List ℚ))) =
      ((group.map (discountedReturns gamma)).map (fun _ : List ℚ => ([] : List ℚ))) := by
    rw [List.map_map]
    rfl
  have hrow : ((List.range ((group.map List.length).foldl max 0)).foldl
      (fun advs u => stepTurn sqrtFn (group.map (discountedReturns gamma)) u advs)
      ((group.map (discountedReturns gamma)).map (fun _ : List ℚ => ([] : List ℚ)))).getD i [] =
      (List.range ((group.map List.length).foldl max 0)).filterMap
        (fun u => ((discountedReturns gamma traj).get? u).map
          (advAt sqrtFn (group.map (discountedReturns gamma)) u)) := by
    rw [List.getD_eq_get?, hadv]
    rfl
  have hRHS : ((returnsOf gamma group).getD i []) = discountedReturns gamma traj := by
    rw [returnsOf, List.getD_eq_get?, List.get?_map, hi]
    rfl
  have hfin : ((List.range (discountedReturns gamma traj).length).map
      (fun u => advAt sqrtFn (group.map (discountedReturns gamma)) u
        ((discountedReturns gamma traj).getD u 0))).getD t 0 =
      advAt sqrtFn (group.map (discountedReturns gamma)) t
        ((discountedReturns gamma traj).getD t 0) := by
    rw [List.getD_eq_get?, List.get?_map, List.get?_range (by omega), Option.map_some',
      Option.getD_some]
  rw [hinit, hrow,
    filterMap_range_min (discountedReturns gamma traj)
      (advAt sqrtFn (group.map (discountedReturns gamma))),
    min_eq_right (by omega), hRHS]
  exact hfin

/-- C4: returns are computed backward by `R_t = reward_t + gamma * R_{t+1}`
(default `gamma = 1`); for every non-empty group the flattened output
carries, for trajectory `i` at 0-based turn `t`, the advantage
`(R_{i,t} - mu_t) / sigma_t` where `mu_t`/`sigma_t` are taken over the
trajectories with a step at `t` (Bessel-corrected, variance floored at
1e-6, `sigma_t = 1` and `mu_t` the sole return when only one trajectory
has a step at `t`, hence advantage 0); two identical returns at a shared
turn both get advantage 0, and returns 1 and -1 at a shared turn get
advantages equal in magnitude and opposite in sign. -/
theorem claim_C4 (sqrtFn : ℚ → ℚ) :
    (∀ (gamma : ℚ) (traj : List Step) (t : Nat) (s : Step), traj.get? t = some s →
      (discountedReturns gamma traj).get? t =
        some (s.reward + gamma * ((discountedReturns gamma traj).get? (t + 1)).getD 0)) ∧
    (∀ (gamma : ℚ) (group_trajs : List (List Step)), group_trajs ≠ [] →
      compute_returns_and_advantages sqrtFn group_trajs gamma =
        some (specFlat sqrtFn gamma group_trajs)) ∧
    (∀ (returns : List (List ℚ)) (t : Nat) (v : ℚ), turnVals returns t = [v] →
      advAt sqrtFn returns t v = 0) ∧
    (∀ (returns : List (List ℚ)) (t : Nat) (v : ℚ), turnVals returns t = [v, v] →
      advAt sqrtFn returns t v = 0) ∧
    (∀ (returns : List (List ℚ)) (t : Nat), turnVals returns t = [1, -1] →
      advAt sqrtFn returns t 1 = -(advAt sqrtFn returns t (-1)) ∧
      |advAt sqrtFn returns t 1| = |advAt sqrtFn returns t (-1)|) := by
  refine ⟨?_, ?_, ?_, ?_, ?_⟩
  · intro gamma traj
    induction traj with
    | nil => intro t s h; simp [List.get?] at h
    | cons s0 rest ih =>
      intro t s h
      cases t with
      | zero =>
        rw [List.get?_cons_zero] at h
        injection h with h
        subst h
        have hh : (discountedReturns gamma rest).headD 0 =
            ((discountedReturns gamma rest).get? 0).getD 0 := by
          cases discountedReturns gamma rest <;> rfl
        show some (s0.reward + gamma * (discountedReturns gamma rest).headD 0) =
          some (s0.reward + gamma * ((discountedReturns gamma rest).get? 0).getD 0)
        rw [hh]
      | succ n =>
        rw [List.get?_cons_succ] at h
        show (discountedReturns gamma rest).get? n =
          some (s.reward + gamma * ((discountedReturns gamma rest).get? (n + 1)).getD 0)
        exact ih n s h
  · intro gamma group hne
    rw [compute_returns_and_advantages,
      if_neg (by simpa [List.isEmpty_iff] using hne), specFlat]
    refine congrArg some (List.flatMap_congr ?_)
    intro it hit
    obtain ⟨hi, hget⟩ := mem_enum_bounds group it.1 it.2 hit
    refine List.map_congr_left ?_
    intro ts hts
    obtain ⟨ht, -⟩ := mem_enum_bounds it.2 ts.1 ts.2 hts
    show FlatStep.mk _ _ _ _ = FlatStep.mk _ _ _ _
    congr 1
    exact adv_entry_eq sqrtFn gamma group it.1 it.2 hget ts.1 ht
  · intro returns t v h
    rw [advAt, h]
    have hms : muSigma sqrtFn [v] = (v, 1) := by
      rw [muSigma, if_neg (by simp), if_pos (by simp)]
      rfl
    rw [hms]
    norm_num
  · intro returns t v h
    rw [advAt, h]
    have hmu : (muSigma sqrtFn [v, v]).1 = v := by
      rw [muSigma, if_pos (by simp)]
      show (v + (v + 0)) / 2 = v
      ring
    rw [hmu, sub_self, zero_div]
  · intro returns t h
    rw [advAt, advAt, h]
    have hmu : (muSigma sqrtFn [(1 : ℚ), -1]).1 = 0 := by
      rw [muSigma, if_pos (by simp)]
      show ((1 : ℚ) + (-1 + 0)) / 2 = 0
      norm_num
    rw [hmu]
    constructor
    · rw [show (1 : ℚ) - 0 = -(-1 - 0) from by ring, neg_div]
    · rw [show (-1 : ℚ) - 0 = -(1 - 0) from by ring, neg_div, abs_neg]

/-- Closed instance of `claim_C4`: the return recurrence, the flattened
output, and a zero advantage at a single-trajectory turn, each on
concrete inputs. -/
theorem claim_C4_witness :
    (discountedReturns 1 [(⟨strL "p", strL "a", 0, 1⟩ : Step)]).get? 0 =
      some ((1 : ℚ) + 1 * ((discountedReturns 1 [(⟨strL "p", strL "a", 0, 1⟩ : Step)]).get? 1).getD 0) ∧
    compute_returns_and_advantages id [[⟨strL "p", strL "a", 0, 1⟩]] 1 =
      some (specFlat id 1 [[⟨strL "p", strL "a", 0, 1⟩]]) ∧
    advAt id [[(5 : ℚ)]] 0 5 = 0 := by
  refine ⟨(claim_C4 id).1 1 [⟨strL "p", strL "a", 0, 1⟩] 0 ⟨strL "p", strL "a", 0, 1⟩ rfl,
    (claim_C4 id).2.1 1 [[⟨strL "p", strL "a", 0, 1⟩]] (by simp),
    (claim_C4 id).2.2.1 [[(5 : ℚ)]] 0 5 rfl⟩

/-- `corruptor.delete_line` with the random index explicit: no-op on an
empty buffer, else remove the chosen line. -/
def delete_line (code_lines : List Str) (idx : Nat) : List Str :=
  if code_lines = [] then code_lines else code_lines.eraseIdx idx

/-- `corruptor.add_line` with the random insertion point and chosen
donor line explicit. -/
def add_line (code_lines : List Str) (idx : Nat) (line : Str) : List Str :=
  code_lines.take idx ++ line :: code_lines.drop idx

/-- `corruptor.replace_line` with the random index and donor line
explicit: no-op on an empty buffer. -/
def replace_line (code_lines : List Str) (idx : Nat) (line : Str) : List Str :=
  if code_lines = [] then code_lines else code_lines.set idx line

/-- One corruption operation with its random draws made explicit. -/
inductive CorruptOp where
  | delete (idx : Nat)
  | add (idx : Nat) (line : Str)
  | replace (idx : Nat) (line : Str)
  | typo (idx wi pos : Nat) (letter : Char)

/-- Apply one corruption operation (the dispatch in
`generate_demo_for_example`'s corruption loop). -/
def applyCorrupt (op : CorruptOp) (code : List Str) : List Str :=
  match op with
  | .delete idx => delete_line code idx
  | .add idx line => add_line code idx line
  | .replace idx line => replace_line code idx line
  | .typo idx wi pos letter => typo_word code idx wi pos letter

/-- The op-type string recorded in `ops` for each corruption. -/
def opType : CorruptOp → Str
  | .delete _ => strL "delete"
  | .add _ _ => strL "add"
  | .replace _ _ => strL "replace"
  | .typo _ _ _ _ => strL "typo"

/-- The line-alignment scan of `invert_action_for_op`: the first index
`i` of the enumerated list at which the indexed list is exhausted or
differs, if any. -/
def firstDiv : List Str → List Str → Option Nat
  | [], _ => none
  | _ :: _, [] => some 0
  | c :: cl, d :: dl => if d ≠ c then some 0 else (firstDiv cl dl).map (· + 1)

/-- `demo_generator.invert_action_for_op`: synthesize a DSL action that
reverts one corruption, by aligning the clean lines against the current
lines.  The Python fallbacks index `clean_lines[-1]` / `clean_lines[0]`,
which raise on an empty clean list; here they yield a default padded
with `[]` (unreachable under the non-empty hypotheses of the claims). -/
def invert_action_for_op (op_type : Str) (clean_lines current_lines : List Str) : Str :=
  if op_type = strL "delete" then
    match firstDiv clean_lines current_lines with
    | some i => strL "ADDL " ++ natToStr (i + 1) ++ strL " >>>" ++ clean_lines.getD i []
    | none => strL "ADDL " ++ natToStr (current_lines.length + 1) ++ strL " >>>" ++
        clean_lines.getLastD []
  else if op_type = strL "add" then
    match firstDiv current_lines clean_lines with
    | some i => strL "DELL " ++ natToStr (i + 1)
    | none => strL "DELL " ++ natToStr current_lines.length
  else if op_type = strL "replace" || op_type = strL "typo" then
    match firstDiv clean_lines current_lines with
    | some i => strL "REPL " ++ natToStr (i + 1) ++ strL " >>>" ++ clean_lines.getD i []
    | none => strL "REPL 1 >>>" ++ clean_lines.getD 0 []
  else strL "EXIT"

/-- `demo_generator.generate_demo_for_example` with the corruption
randomness explicit: corrupt the clean lines by `ops`, instantiate the
environment on the corrupted code, then walk `ops` in reverse appending
each synthesized action and the rendered state it produces, closing the
trace with `"EXIT"`.  Returns `(trace, corrupted_code)`. -/
def generate_demo_for_example {Ns : Type} (ex : ExecOracle Ns) (tests : List Str)
    (clean_code_lines : List Str) (ops : List CorruptOp) : List Str × List Str :=
  let code := ops.foldl (fun c op => applyCorrupt op c) clean_code_lines
  let env0 := initEnv ex tests code
  let res := ops.reverse.foldl
    (fun (st : List Str × EnvState) op =>
      let action := invert_action_for_op (opType op) clean_code_lines st.2.code_lines
      let st' := envApply ex tests st.2 action
      (st.1 ++ [action, render st'], st'))
    ([render env0], env0)
  (res.1 ++ [strL "EXIT"], code)

theorem digitChar_isDigit : ∀ d, isDigitCh (digitChar d) = true := by
  intro d
  rcases d with _ | _ | _ | _ | _ | _ | _ | _ | _ | d <;> rfl

theorem digitVal_digitChar : ∀ d, d < 10 → digitVal (digitChar d) = d := by
  intro d h
  interval_cases d <;> decide

theorem natToStr_ne_nil (n : Nat) : natToStr n ≠ [] := by
  by_cases h : n < 10
  · rw [natToStr_lt10 n h]
    simp
  · rw [natToStr_ge10 n h]
    simp

theorem natToStr_digits (n : Nat) : ∀ c ∈ natToStr n, isDigitCh c = true := by
  induction n using Nat.strong_induction_on with
  | _ n ih =>
    intro c hc
    by_cases h : n < 10
    · rw [natToStr_lt10 n h] at hc
      simp only [List.mem_singleton] at hc
      subst hc
      exact digitChar_isDigit n
    · rw [natToStr_ge10 n h] at hc
      rcases List.mem_append.mp hc with h2 | h2
      · exact ih (n / 10) (Nat.div_lt_self (by omega) (by omega)) c h2
      · simp only [List.mem_singleton] at h2
        subst h2
        exact digitChar_isDigit (n % 10)

theorem strToNat_natToStr (n : Nat) : strToNat (natToStr n) = n := by
  induction n using Nat.strong_induction_on with
  | _ n ih =>
    by_cases h : n < 10
    · rw [natToStr_lt10 n h, strToNat, List.foldl_cons, List.foldl_nil,
        digitVal_digitChar n h]
      omega
    · rw [natToStr_ge10 n h, strToNat, List.foldl_append, List.foldl_cons, List.foldl_nil]
      have := ih (n / 10) (Nat.div_lt_self (by omega) (by omega))
      rw [strToNat] at this
      rw [this, digitVal_digitChar (n % 10) (by omega)]
      omega

theorem digit_not_ws (c : Char) (h : isDigitCh c = true) : isWS c = false := by
  have h1 : ('0' : Char) ≤ c := by
    simp only [isDigitCh, Bool.and_eq_true, decide_eq_true_eq] at h
    exact h.1
  by_contra hws
  rw [Bool.not_eq_false, isWS] at hws
  simp only [Bool.or_eq_true, decide_eq_true_eq] at hws
  rcases hws with ((((hc | hc) | hc) | hc) | hc) | hc <;> subst hc <;>
    exact absurd h1 (by decide)

theorem digit_ne_gt (c : Char) (h : isDigitCh c = true) : c ≠ '>' := by
  intro hc
  subst hc
  exact absurd h (by decide)

theorem getD_mem {α : Type} (l : List α) (i : Nat) (d : α) (h : i < l.length) :
    l.getD i d ∈ l := by
  induction l generalizing i with
  | nil => simp at h
  | cons a t ih =>
    cases i with
    | zero => simp [List.getD]
    | succ n =>
      simp only [List.length_cons, Nat.succ_lt_succ_iff] at h
      exact List.mem_cons.mpr (Or.inr (by simpa [List.getD] using ih n h))

/-- `str.strip()` is the identity on text with non-whitespace ends. -/
theorem pyStrip_noop (l : Str)
    (h1 : ∀ c, l.head? = some c → isWS c = false)
    (h2 : ∀ c, l.getLast? = some c → isWS c = false) : pyStrip l = l := by
  rw [pyStrip]
  cases l with
  | nil => rfl
  | cons c r =>
    rw [List.dropWhile_cons, if_neg (by rw [h1 c rfl]; simp)]
    rw [stripTrail]
    cases hrev : (c :: r).reverse with
    | nil => exact absurd (congrArg List.length hrev) (by simp)
    | cons c' r' =>
      have hlast : (c :: r).getLast? = some c' := by
        rw [← List.head?_reverse, hrev]
        rfl
      rw [List.dropWhile_cons, if_neg (by rw [h2 c' hlast]; simp), ← hrev,
        List.reverse_reverse]

theorem isPre_append_self : ∀ (p q : Str), isPre p (p ++ q) = true := by
  intro p
  induction p with
  | nil => intro q; rfl
  | cons c t ih =>
    intro q
    rw [List.cons_append, isPre]
    simp [ih q]

theorem append_ne_nil_right {α : Type} (l1 l2 : List α) (h : l2 ≠ []) : l1 ++ l2 ≠ [] := by
  intro hc
  exact h (List.append_eq_nil.mp hc).2

theorem containsStr_mid (p q : Str) :
    containsStr (strL ">>>") (p ++ (strL ">>>" ++ q)) = true := by
  induction p with
  | nil =>
    rw [List.nil_append]
    cases hq : strL ">>>" ++ q with
    | nil => exact absurd (congrArg List.length hq) (by simp [strL])
    | cons c rest =>
      show (isPre (strL ">>>") (c :: rest) || containsStr (strL ">>>") rest) = true
      rw [← hq, isPre_append_self]
      rfl
  | cons c t ih =>
    rw [List.cons_append, containsStr]
    simp [ih]

theorem afterFirst_mid (p q : Str) (hp : ∀ c ∈ p, c ≠ '>') :
    afterFirst (strL ">>>") (p ++ (strL ">>>" ++ q)) = q := by
  induction p with
  | nil =>
    rw [List.nil_append]
    cases hq : strL ">>>" ++ q with
    | nil => exact absurd (congrArg List.length hq) (by simp [strL])
    | cons c rest =>
      show (if isPre (strL ">>>") (c :: rest) = true
        then (c :: rest).drop (strL ">>>").length else afterFirst (strL ">>>") rest) = q
      rw [← hq, if_pos (isPre_append_self (strL ">>>") q)]
      exact List.drop_left (strL ">>>") q
  | cons c t ih =>
    have hnp : isPre (strL ">>>") (c :: (t ++ (strL ">>>" ++ q))) = false := by
      show (('>' = c : Bool) && isPre (strL ">>") (t ++ (strL ">>>" ++ q))) = false
      have hc : c ≠ '>' := hp c (by simp)
      rw [decide_eq_false (fun h : '>' = c => hc h.symm), Bool.false_and]
    rw [List.cons_append, afterFirst, if_neg (by rw [hnp]; simp)]
    exact ih (fun d hd => hp d (by simp [hd]))

/-- Tokenization of a well-formed two-token ADDL/REPL action text:
`"VERB " ++ digits ++ " >>>" ++ content` splits into the verb, the
digit token, and some tail. -/
theorem splitWS_addl (verb : Str) (hv : verb ≠ []) (hvf : ∀ c ∈ verb, isWS c = false)
    (ns : Str) (hns : ns ≠ []) (hnsf : ∀ c ∈ ns, isWS c = false) (rest : Str) :
    pySplitWS (verb ++ (' ' :: (ns ++ (' ' :: rest)))) =
      verb :: ns :: pySplitWS rest := by
  rw [pySplitWS, pySplitWSAux_token_append verb hvf _ [], List.nil_append]
  rw [pySplitWSAux, if_pos (by decide),
    if_neg (by simpa [List.isEmpty_iff] using hv)]
  rw [pySplitWSAux_token_append ns hnsf _ [], List.nil_append]
  rw [pySplitWSAux, if_pos (by decide),
    if_neg (by simpa [List.isEmpty_iff] using hns)]
  rfl

/-- Parsing a synthesized `ADDL` action: provided the content has no
trailing whitespace (which `strip()` would remove), `apply` inserts
exactly that content at the (clamped) 1-based line. -/
theorem apply_ADDL_parse (lines : List Str) (n : Nat) (ln : Str)
    (htrail : ∀ c, ln.getLast? = some c → isWS c = false) :
    apply lines (strL "ADDL " ++ natToStr n ++ strL " >>>" ++ ln) =
      applyADDL lines n ln := by
  have hA : strL "ADDL " ++ natToStr n ++ strL " >>>" ++ ln =
      strL "ADDL" ++ (' ' :: (natToStr n ++ (' ' :: (strL ">>>" ++ ln)))) := by
    rw [List.append_assoc, List.append_assoc]
    rfl
  have hnsf : ∀ c ∈ natToStr n, isWS c = false :=
    fun c hc => digit_not_ws c (natToStr_digits n c hc)
  have hstrip : pyStrip (strL "ADDL " ++ natToStr n ++ strL " >>>" ++ ln) =
      strL "ADDL " ++ natToStr n ++ strL " >>>" ++ ln := by
    refine pyStrip_noop _ ?_ ?_
    · intro c hc
      rw [hA] at hc
      injection hc with hc
      subst hc
      rfl
    · intro c hc
      rw [List.append_assoc, List.append_assoc] at hc
      have hne0 : strL " >>>" ++ ln ≠ [] := by
        intro h
        exact absurd (List.append_eq_nil.mp h).1 (by decide)
      rw [List.getLast?_append_of_ne_nil _ (append_ne_nil_right _ _ hne0),
        List.getLast?_append_of_ne_nil _ hne0] at hc
      cases ln with
      | nil =>
        simp only [List.append_nil] at hc
        rw [show (strL " >>>").getLast? = some '>' from rfl] at hc
        injection hc with hc
        subst hc
        rfl
      | cons d r =>
        rw [List.getLast?_append_of_ne_nil _ (by simp)] at hc
        exact htrail c hc
  have hsplit : pySplitWS (pyStrip (strL "ADDL " ++ natToStr n ++ strL " >>>" ++ ln)) =
      strL "ADDL" :: natToStr n :: pySplitWS (strL ">>>" ++ ln) := by
    rw [hstrip, hA]
    exact splitWS_addl (strL "ADDL") (by decide) (by decide)
      (natToStr n) (natToStr_ne_nil n) hnsf (strL ">>>" ++ ln)
  have hA2 : strL "ADDL " ++ natToStr n ++ strL " >>>" ++ ln =
      (strL "ADDL " ++ (natToStr n ++ [' '])) ++ (strL ">>>" ++ ln) := by
    simp only [List.append_assoc]
    rfl
  have hp : ∀ c ∈ strL "ADDL " ++ (natToStr n ++ [' ']), c ≠ '>' := by
    intro c hc
    rcases List.mem_append.mp hc with h | h
    · exact (by decide : ∀ d ∈ strL "ADDL ", d ≠ '>') c h
    · rcases List.mem_append.mp h with h | h
      · exact digit_ne_gt c (natToStr_digits n c h)
      · simp only [List.mem_singleton] at h
        subst h
        decide
  have hdig : pyIsDigit (natToStr n) = true := by
    rw [pyIsDigit]
    have h1 : (natToStr n).isEmpty = false := by
      cases hn : natToStr n with
      | nil => exact absurd hn (natToStr_ne_nil n)
      | cons a b => rfl
    rw [h1]
    simp only [Bool.not_false, Bool.true_and, List.all_eq_true]
    exact fun c hc => natToStr_digits n c hc
  have hcont : containsStr (strL ">>>") (strL "ADDL " ++ natToStr n ++ strL " >>>" ++ ln) =
      true := by
    rw [hA2]
    exact containsStr_mid _ ln
  have hafter : afterFirst (strL ">>>") (strL "ADDL " ++ natToStr n ++ strL " >>>" ++ ln) =
      ln := by
    rw [hA2]
    exact afterFirst_mid _ ln hp
  rw [apply]
  rw [hsplit]
  dsimp only
  rw [if_neg (by decide : ¬ strL "ADDL" = strL "DELL"), if_pos rfl, hdig]
  rw [hstrip, hcont]
  rw [if_pos rfl, hafter, strToNat_natToStr]
  rw [if_pos rfl]

/-- The alignment scan finds, for a buffer obtained by deleting one
line, an index at which inserting the clean line restores the clean
buffer exactly. -/
theorem firstDiv_erase_insert :
    ∀ (clean : List Str) (idx : Nat), idx < clean.length →
      ∃ i, firstDiv clean (clean.eraseIdx idx) = some i ∧
        i ≤ (clean.eraseIdx idx).length ∧ i < clean.length ∧
        pyInsert (clean.eraseIdx idx) i (clean.getD i []) = clean := by
  intro clean
  induction clean with
  | nil => intro idx h; simp at h
  | cons c rest ih =>
    intro idx hidx
    cases idx with
    | zero =>
      show ∃ i, firstDiv (c :: rest) rest = some i ∧ i ≤ rest.length ∧
        i < (c :: rest).length ∧ pyInsert rest i ((c :: rest).getD i []) = c :: rest
      cases rest with
      | nil => exact ⟨0, rfl, by simp, by simp, rfl⟩
      | cons r rs =>
        by_cases hrc : r = c
        · subst hrc
          obtain ⟨i', h1, h2, h3, h4⟩ := ih 0 (by simp)
          have h1' : firstDiv (r :: rs) rs = some i' := h1
          have h2' : i' ≤ rs.length := h2
          have h4' : pyInsert rs i' ((r :: rs).getD i' []) = r :: rs := h4
          refine ⟨i' + 1, ?_, ?_, ?_, ?_⟩
          · show (if r ≠ r then some 0 else (firstDiv (r :: rs) rs).map (· + 1)) =
              some (i' + 1)
            rw [if_neg (by simp), h1']
            rfl
          · simp only [List.length_cons]
            omega
          · simp only [List.length_cons] at h3 ⊢
            omega
          · show r :: pyInsert rs i' ((r :: rs).getD i' []) = r :: r :: rs
            rw [h4']
        · refine ⟨0, ?_, by simp, by simp, rfl⟩
          show (if r ≠ c then some 0 else (firstDiv (r :: rs) rs).map (· + 1)) = some 0
          rw [if_pos hrc]
    | succ j =>
      have hj : j < rest.length := by
        simpa using hidx
      obtain ⟨i', h1, h2, h3, h4⟩ := ih j hj
      refine ⟨i' + 1, ?_, ?_, ?_, ?_⟩
      · show (if c ≠ c then some 0 else (firstDiv rest (rest.eraseIdx j)).map (· + 1)) =
          some (i' + 1)
        rw [if_neg (by simp), h1]
        rfl
      · show i' + 1 ≤ (c :: rest.eraseIdx j).length
        simp only [List.length_cons]
        omega
      · simp only [List.length_cons]
        omega
      · show c :: pyInsert (rest.eraseIdx j) i' (rest.getD i' []) = c :: rest
        rw [h4]

/-- C6 counterexample: with the clean line `"a "` (trailing space), the
single-delete trace's one action re-inserts `"a"` — `apply` strips the
action text, so the restored buffer is NOT bit-for-bit the clean one. -/
theorem claim_C6_counterexample :
    (generate_demo_for_example oracleOK [] [strL "a "] [.delete 0]).2 = [] ∧
    invert_action_for_op (strL "delete") [strL "a "] [] = strL "ADDL 1 >>>a " ∧
    apply [] (invert_action_for_op (strL "delete") [strL "a "] []) = [strL "a"] ∧
    [strL "a"] ≠ [strL "a "] := by
  refine ⟨rfl, rfl, rfl, by decide⟩

/-- C6 amended: for every non-empty clean line list WHOSE LINES HAVE NO
TRAILING WHITESPACE, a single-delete episode produces exactly one
inverse action; the trace is exactly the corrupted rendering, that
action, the rendering of the restored clean state, and the literal
`"EXIT"`; and applying the action to the corrupted buffer restores the
clean buffer exactly.  (Trailing whitespace in the re-inserted line is
removed by `apply`'s `strip()`, breaking exact restoration.) -/
theorem claim_C6_amended {Ns : Type} (ex : ExecOracle Ns) (tests : List Str)
    (clean : List Str) (idx : Nat) (hne : clean ≠ []) (hidx : idx < clean.length)
    (htrail : ∀ l ∈ clean, ∀ c, l.getLast? = some c → isWS c = false) :
    generate_demo_for_example ex tests clean [.delete idx] =
      ([render (initEnv ex tests (clean.eraseIdx idx)),
        invert_action_for_op (strL "delete") clean (clean.eraseIdx idx),
        render (initEnv ex tests clean), strL "EXIT"],
       clean.eraseIdx idx) ∧
    apply (clean.eraseIdx idx)
      (invert_action_for_op (strL "delete") clean (clean.eraseIdx idx)) = clean := by
  obtain ⟨i, h1, h2, h3, h4⟩ := firstDiv_erase_insert clean idx hidx
  have hact : invert_action_for_op (strL "delete") clean (clean.eraseIdx idx) =
      strL "ADDL " ++ natToStr (i + 1) ++ strL " >>>" ++ clean.getD i [] := by
    rw [invert_action_for_op, if_pos rfl, h1]
  have happly : apply (clean.eraseIdx idx)
      (invert_action_for_op (strL "delete") clean (clean.eraseIdx idx)) = clean := by
    rw [hact, apply_ADDL_parse _ _ _ (htrail _ (getD_mem clean i [] h3)), applyADDL,
      show max 1 (min (i + 1) ((clean.eraseIdx idx).length + 1)) - 1 = i from by omega]
    exact h4
  refine ⟨?_, happly⟩
  have hcode : applyCorrupt (.delete idx) clean = clean.eraseIdx idx := by
    rw [applyCorrupt, delete_line, if_neg hne]
  have hst : envApply ex tests (initEnv ex tests (clean.eraseIdx idx))
      (invert_action_for_op (strL "delete") clean (clean.eraseIdx idx)) =
      initEnv ex tests clean := by
    rw [envApply]
    dsimp only [initEnv]
    rw [happly]
  rw [generate_demo_for_example]
  simp only [List.foldl_cons, List.foldl_nil, List.reverse_cons, List.reverse_nil,
    List.nil_append, hcode]
  dsimp only [initEnv, opType]
  rw [show envApply ex tests
      (⟨clean.eraseIdx idx, feedbackFor ex tests (clean.eraseIdx idx)⟩ : EnvState)
      (invert_action_for_op (strL "delete") clean (clean.eraseIdx idx)) =
      (⟨clean, feedbackFor ex tests clean⟩ : EnvState) from hst]
  simp only [List.cons_append, List.nil_append]

/-- Closed instance of `claim_C6_amended`: deleting line 1 of
`["ab", "cd"]` and replaying the synthesized trace. -/
theorem claim_C6_amended_witness :
    apply [strL "cd"] (invert_action_for_op (strL "delete") [strL "ab", strL "cd"]
      [strL "cd"]) = [strL "ab", strL "cd"] := by
  have h := claim_C6_amended oracleOK [] [strL "ab", strL "cd"] 0 (by decide) (by decide)
    (by decide)
  exact h.2

end CoE
